import Mathlib

/-!
Verification of the grammar front end of the flat-py repository.

This file embeds, as executable Lean definitions, the data model and the
algorithms of:
  - src/flat/lang/translation.py   (normalize, Validator, Normalizer, project,
    collect_nonterminals), together with the AST of src/flat/lang/ast.py and
    the diagnostics of src/flat/lang/diagnostics.py;
  - the escape-decoding character parsers of src/flat/grammar/parsers.py
    (ExprParser.char) and src/flat/py/parser.py (char);
  - the parse entry points src/flat/grammar/parsers.py (parse_CFG) and
    src/flat/py/parser.py (parse), on top of a model of the small subset of
    the external parsy combinator library that they use.

Modelling conventions, stated once here:
  - Python dicts are embedded as insertion-ordered association lists
    (dictSet replaces in place, otherwise appends, exactly like dict
    assignment).  Claims about dict equality are mapping-level (Python dict
    equality ignores order), stated via lookupN.
  - Python sets (the reachable set of project, collect_nonterminals) have
    unspecified iteration order; the embedding fixes a canonical order
    (first-occurrence or grammar order).  Every theorem below about them is
    order-insensitive, so the choice is immaterial.
  - Source locations attached to AST nodes and diagnostics are dropped: no
    behaviour embedded here branches on a location.  A diagnostic is its
    kind plus its payload strings.
  - The single assert in Normalizer.visit_CharClass is embedded as the
    error case of Except Unit: a Python AssertionError aborting normalize.
  - Python int values that the grammar parser can only ever instantiate
    with naturals (Power.times, NatRange bounds) are embedded as Nat.
-/

namespace FlatSpec

/-! ## Normal form (translation.py lines 9-18) -/

/-- NonTerminal symbol in normal form: the NT dataclass, and the str
terminals, of translation.py. A normal-form symbol is str or NT. -/
inductive Sym where
  | t (s : String)
  | nt (id : String)
deriving DecidableEq, Repr

/-- One rule body: a list of alternatives, each a list of symbols. -/
abbrev Alts := List (List Sym)

/-- NormLang: mapping from rule name to alternatives, embedded as an
insertion-ordered association list (Python dict). -/
abbrev NormLang := List (String × Alts)

/-- Dict lookup on the association-list embedding of a Python dict. -/
def lookupN : NormLang → String → Option Alts
  | [], _ => none
  | (k2, v) :: rest, k => if k2 = k then some v else lookupN rest k

/-- Dict assignment d[k] = v: replace in place if the key exists (keeping
its position, as Python dicts do), otherwise append. -/
def dictSet : NormLang → String → Alts → NormLang
  | [], k, v => [(k, v)]
  | (k2, v2) :: rest, k, v =>
    if k2 = k then (k2, v) :: rest else (k2, v2) :: dictSet rest k v

/-- Key test k in d. -/
def isKey (g : NormLang) (k : String) : Bool := (lookupN g k).isSome

/-- Mapping-level equality of two embedded dicts (Python dict equality
ignores insertion order). -/
def EqMap (a b : NormLang) : Prop := ∀ k, lookupN a k = lookupN b k

/-! ## Projection (translation.py lines 182-204) -/

/-- collect_nonterminals: all nonterminal ids occurring in a body.  The
source returns a frozenset; the embedding returns the first-occurrence
dedup, a canonical enumeration of that set. -/
def collectNonterminals (body : Alts) : List String :=
  (body.flatMap (fun seq =>
    seq.filterMap (fun s => match s with | .nt id => some id | .t _ => none))).dedup

/-- The alternatives of a rule, lang[id]; only ever used under an isKey
guard, mirroring the source. -/
def altsOf (g : NormLang) (id : String) : Alts := (lookupN g id).getD []

/-- Count of grammar keys not yet reached; the primary termination measure
of the BFS loop of project. -/
def keyCount (g : NormLang) (reach : List String) : Nat :=
  ((g.map Prod.fst).filter (fun k => k ∉ reach)).length

/-- The while loop of project: queue-based breadth-first reachability.
Each popped id is added to the reachable set when it is a key of the
grammar and not already reached, and the nonterminals of its body that are
not yet reached are appended to the queue. -/
def bfs (g : NormLang) : List String → List String → List String
  | [], reach => reach
  | id :: rest, reach =>
    if h : isKey g id ∧ id ∉ reach then
      bfs g
        (rest ++ (collectNonterminals (altsOf g id)).filter
          (fun x => x ∉ reach ++ [id]))
        (reach ++ [id])
    else
      bfs g rest reach
termination_by queue reach => (keyCount g reach, queue.length)
decreasing_by
  · refine Prod.Lex.left _ _ ?_
    unfold keyCount
    have hk : id ∈ g.map Prod.fst := by
      have hkey := h.1
      clear * - hkey
      induction g with
      | nil => simp [isKey, lookupN] at hkey
      | cons p rest ih =>
        obtain ⟨k2, v⟩ := p
        by_cases hp : k2 = id
        · simp [hp]
        · simp only [isKey, lookupN, if_neg hp] at hkey
          simpa using Or.inr (ih hkey)
    have he : (g.map Prod.fst).filter (fun k => k ∉ reach ++ [id]) =
        ((g.map Prod.fst).filter (fun k => k ∉ reach)).filter (fun k => k ≠ id) := by
      rw [List.filter_filter]
      apply List.filter_congr
      intro x _
      simp only [List.mem_append, List.mem_singleton, decide_not]
      rcases Decidable.em (x ∈ reach) with hx | hx <;>
        rcases Decidable.em (x = id) with hy | hy <;> simp [hx, hy]
    rw [he]
    apply List.length_filter_lt_length_iff_exists.mpr
    exact ⟨id, by simp [hk, h.2]⟩
  · exact Prod.Lex.right _ (by simp)

/-- project: the sub-grammar reachable from start.  The source builds the
dict over the reachable set (Python set iteration order, unspecified); the
embedding enumerates in grammar order, a mapping-equal canonical choice. -/
def projectN (g : NormLang) (start : String) : NormLang :=
  let reach := bfs g [start] []
  g.filter (fun p => p.1 ∈ reach)

/-! ## Reachability: the specification of project -/

/-- Reachability along NonTerminal references: a chain from u to t every
node of which is a key of the grammar, each next node occurring as a
nonterminal in the alternatives of the previous one. -/
inductive Reach (g : NormLang) : String → String → Prop where
  | refl (u : String) (h : isKey g u) : Reach g u u
  | step (u v t : String) (hu : isKey g u)
      (hv : v ∈ collectNonterminals (altsOf g u)) (htail : Reach g v t) :
      Reach g u t

/-- Invariant of the loop: a grammar-key successor of a reached id is
reached or queued. -/
def BfsInv (g : NormLang) (queue reach : List String) : Prop :=
  ∀ u ∈ reach, ∀ v ∈ collectNonterminals (altsOf g u), isKey g v →
    v ∈ reach ∨ v ∈ queue

/-! ## Expression AST (lang/ast.py) -/

/-- CharClass mode: the Literal[inclusive, exclusive] field. -/
inductive Mode where
  | inclusive
  | exclusive
deriving DecidableEq, Repr

/-- Item of a character class: a single character or a CharRange with
inclusive bounds. -/
inductive CCItem where
  | ch (c : Char)
  | range (lower upper : Char)
deriving DecidableEq, Repr

/-- The Expr union of lang/ast.py.  The Optional node is called opt, the
Name node keeps its id and optional start fields.  Loop carries the two
NatRange bounds inline (upper = none means unbounded). -/
inductive Expr where
  | lit (value : String)
  | charClass (mode : Mode) (items : List CCItem)
  | name (id : String) (start : Option String)
  | concat (elements : List Expr)
  | union (options : List Expr)
  | star (element : Expr)
  | plus (element : Expr)
  | opt (element : Expr)
  | power (element : Expr) (times : Nat)
  | loop (element : Expr) (lower : Nat) (upper : Option Nat)
deriving Repr

/-- A production rule, reduced to the only fields translation.py reads:
the rule name id and the body.  A Lang is a bare expression or a rule
list (the RL | CFL union of lang/ast.py). -/
inductive Lang where
  | expr (e : Expr)
  | rules (rs : List (String × Expr))

/-! ## Diagnostics (lang/diagnostics.py), locations dropped -/

/-- Diagnostic kinds issued by validation and normalization, identified by
kind and payload (EmptyRange carries the two bound strings exactly as the
source formats them into the message). -/
inductive Diag where
  | emptyRange (lower upper : String)
  | redefinedRule (id : String)
  | undefinedRule (id : String)
  | noStartRule (id : String)
deriving DecidableEq, Repr

/-- NoStartRule discriminator (this diagnostic class exists in
lang/diagnostics.py but translation.py never issues it). -/
def isNoStart : Diag → Bool
  | .noStartRule _ => true
  | _ => false

/-! ## Context and Validator (translation.py lines 54-86) -/

/-- The resolver callback: LangFinder. -/
abbrev Finder := String → Option NormLang

/-- default_finder: always returns None. -/
def defaultFinder : Finder := fun _ => none

/-- Context: the locally defined nonterminal names plus the finder. -/
structure Ctx where
  nonterminals : List String
  finder : Finder

/-- Context.lookup: a locally defined id resolves to NT(id) (inl);
otherwise the finder may produce a previously normalized grammar (inr). -/
def Ctx.lookup (ctx : Ctx) (id : String) : Option (String ⊕ NormLang) :=
  if id ∈ ctx.nonterminals then some (Sum.inl id) else (ctx.finder id).map Sum.inr

/-- Whether an Option String field is truthy in Python: present and not
the empty string.  Name.start is tested with plain truthiness in the
source, so an empty-string start behaves like an absent one. -/
def truthy : Option String → Bool
  | none => false
  | some s => !(s = "")

/-- Validator diagnostics of one character-class item list. -/
def validateCC (items : List CCItem) : List Diag :=
  items.flatMap (fun it =>
    match it with
    | .ch _ => []
    | .range l u => if u.toNat < l.toNat then [.emptyRange (toString l) (toString u)] else [])

/-- Validator.visit_Name: report UndefinedRule for an unresolvable id; for
a resolvable one with a truthy explicit start, report UndefinedRule on the
start symbol when the target is a local NT or lacks that rule. -/
def validateName (ctx : Ctx) (id : String) (start : Option String) : List Diag :=
  match ctx.lookup id with
  | none => [.undefinedRule id]
  | some (Sum.inl _) =>
    match start with
    | some s => if truthy (some s) then [.undefinedRule s] else []
    | none => []
  | some (Sum.inr g) =>
    match start with
    | some s => if truthy (some s) ∧ ¬ isKey g s then [.undefinedRule s] else []
    | none => []

mutual

/-- The Validator pass: diagnostics of one expression, in visit order.
Nodes without an explicit visitor use generic_visit (children in field
order).  Note the Loop guard: the source tests if times.upper and ...,
so an upper bound of 0 (falsy) silences the empty-range check. -/
def validate (ctx : Ctx) : Expr → List Diag
  | .lit _ => []
  | .charClass _ items => validateCC items
  | .name id start => validateName ctx id start
  | .concat es => validateList ctx es
  | .union os => validateList ctx os
  | .star e => validate ctx e
  | .plus e => validate ctx e
  | .opt e => validate ctx e
  | .power e _ => validate ctx e
  | .loop e m u =>
    validate ctx e ++
      (match u with
       | some n => if n ≠ 0 ∧ n < m then [.emptyRange (toString m) (toString n)] else []
       | none => [])

def validateList (ctx : Ctx) : List Expr → List Diag
  | [] => []
  | e :: es => validate ctx e ++ validateList ctx es

end

/-! ## Normalizer (translation.py lines 88-180) -/

/-- Mutable state of one Normalizer instance: the rules dict under
construction and the fresh-name counter (constructed at 0). -/
structure NSt where
  rules : NormLang
  fresh : Nat
deriving Repr

/-- Normalizer._fresh: increment the counter, then format the name. -/
def freshName (n : Nat) : String := "@" ++ toString n

/-- Character expansion of visit_CharClass: a single char contributes
itself, a range contributes every code point from lower to upper
inclusive (empty when lower exceeds upper), duplicates retained. -/
def ccChars : List CCItem → List Char
  | [] => []
  | .ch c :: rest => c :: ccChars rest
  | .range l u :: rest =>
    (List.range' l.toNat (u.toNat + 1 - l.toNat)).map Char.ofNat ++ ccChars rest

/-- Splicing of a resolved grammar: for every inner rule id, assign
rules[name.id] under the dotted key. -/
def splice (rules : NormLang) (name : String) (nested : NormLang) : NormLang :=
  nested.foldl (fun acc p => dictSet acc (name ++ "." ++ p.1) p.2) rules

/-- Python list multiplication seq * k. -/
def repSeq (seq : List Sym) (k : Nat) : List Sym := (List.replicate k seq).flatten

mutual

/-- Normalizer.visit: reduce one expression to a symbol sequence, mutating
the rules dict and the fresh counter.  The error case is the Python
AssertionError of visit_CharClass on an exclusive class; every other case
is total.  The Loop case mirrors the source truthiness test if
times.upper, so upper = some 0 takes the unbounded (star) branch. -/
def visitE (ctx : Ctx) : Expr → NSt → Except Unit (List Sym × NSt)
  | .lit s, st => .ok ([.t s], st)
  | .charClass mode items, st =>
    match mode with
    | .exclusive => .error ()
    | .inclusive =>
      match ccChars items with
      | [c] => .ok ([.t (toString c)], st)
      | chars =>
        let fid := freshName (st.fresh + 1)
        .ok ([.nt fid],
          ⟨dictSet st.rules fid (chars.map (fun c => [.t (toString c)])), st.fresh + 1⟩)
  | .name id start, st =>
    match ctx.lookup id with
    | some (Sum.inl ntid) => .ok ([.nt ntid], st)
    | some (Sum.inr g) =>
      let s := match start with
               | some s0 => if s0 = "" then "start" else s0
               | none => "start"
      let nested := projectN g s
      .ok ([.nt (id ++ "." ++ s)], ⟨splice st.rules id nested, st.fresh⟩)
    | none => .ok ([], st)
  | .concat es, st =>
    match visitList ctx es st with
    | .error e => .error e
    | .ok (symss, st2) => .ok (symss.flatten, st2)
  | .union os, st =>
    let fid := freshName (st.fresh + 1)
    match visitList ctx os ⟨st.rules, st.fresh + 1⟩ with
    | .error e => .error e
    | .ok (alts, st2) => .ok ([.nt fid], ⟨dictSet st2.rules fid alts, st2.fresh⟩)
  | .star e, st =>
    let fid := freshName (st.fresh + 1)
    match visitE ctx e ⟨st.rules, st.fresh + 1⟩ with
    | .error err => .error err
    | .ok (seq, st2) =>
      .ok ([.nt fid], ⟨dictSet st2.rules fid [[], seq ++ [.nt fid]], st2.fresh⟩)
  | .plus e, st =>
    let fid := freshName (st.fresh + 1)
    match visitE ctx e ⟨st.rules, st.fresh + 1⟩ with
    | .error err => .error err
    | .ok (seq, st2) =>
      .ok ([.nt fid], ⟨dictSet st2.rules fid [seq, seq ++ [.nt fid]], st2.fresh⟩)
  | .opt e, st =>
    let fid := freshName (st.fresh + 1)
    match visitE ctx e ⟨st.rules, st.fresh + 1⟩ with
    | .error err => .error err
    | .ok (seq, st2) =>
      .ok ([.nt fid], ⟨dictSet st2.rules fid [[], seq], st2.fresh⟩)
  | .power e n, st =>
    match visitE ctx e st with
    | .error err => .error err
    | .ok (seq, st2) => .ok (repSeq seq n, st2)
  | .loop e m u, st =>
    match visitE ctx e st with
    | .error err => .error err
    | .ok (seq, st2) =>
      let fid := freshName (st2.fresh + 1)
      match u with
      | some (Nat.succ n0) =>
        let n := Nat.succ n0
        .ok (repSeq seq m ++ [.nt fid],
          ⟨dictSet st2.rules fid ((List.range (n + 1 - m)).map (repSeq seq)),
            st2.fresh + 1⟩)
      | _ =>
        .ok (repSeq seq m ++ [.nt fid],
          ⟨dictSet st2.rules fid [[], seq ++ [.nt fid]], st2.fresh + 1⟩)

def visitList (ctx : Ctx) : List Expr → NSt → Except Unit (List (List Sym) × NSt)
  | [], st => .ok ([], st)
  | e :: es, st =>
    match visitE ctx e st with
    | .error err => .error err
    | .ok (s1, st1) =>
      match visitList ctx es st1 with
      | .error err => .error err
      | .ok (ss, st2) => .ok (s1 :: ss, st2)

end

/-- Normalizer.rule: a Union body contributes one alternative per option,
anything else a single alternative. -/
def ruleN (ctx : Ctx) (id : String) (body : Expr) (st : NSt) : Except Unit NSt :=
  match body with
  | .union os =>
    match visitList ctx os st with
    | .error err => .error err
    | .ok (alts, st2) => .ok ⟨dictSet st2.rules id alts, st2.fresh⟩
  | b =>
    match visitE ctx b st with
    | .error err => .error err
    | .ok (syms, st2) => .ok ⟨dictSet st2.rules id [syms], st2.fresh⟩

/-- The normalization loop over the rules, in order. -/
def runRules (ctx : Ctx) : List (String × Expr) → NSt → Except Unit NSt
  | [], st => .ok st
  | (id, body) :: rest, st =>
    match ruleN ctx id body st with
    | .error err => .error err
    | .ok st2 => runRules ctx rest st2

/-! ## normalize (translation.py lines 20-52) -/

/-- A bare expression becomes the single synthesized start rule. -/
def rulesOf : Lang → List (String × Expr)
  | .expr e => [("start", e)]
  | .rules rs => rs

/-- The duplicate-detection loop of normalize: the deduplicated
nonterminal list in first-occurrence order, plus one RedefinedRule
diagnostic per repeated rule name, in rule order. -/
def collectRuleNames : List String → List String → List String × List Diag
  | [], seen => (seen, [])
  | n :: rest, seen =>
    if n ∈ seen then
      let (nts, ds) := collectRuleNames rest seen
      (nts, Diag.redefinedRule n :: ds)
    else
      collectRuleNames rest (seen ++ [n])

/-- Output of normalize: the diagnostics appended to the issuer (always
produced: duplicate detection and validation run before the Normalizer)
and the returned normal form, or the error marker when the Normalizer
aborts with an AssertionError. -/
structure NormOut where
  diags : List Diag
  result : Except Unit NormLang
deriving Repr

def exOk {α : Type} : Except Unit α → Bool
  | .ok _ => true
  | .error _ => false

/-- normalize: synthesize the start rule for a bare expression, collect
the nonterminal names (reporting redefinitions), validate every rule
body, then normalize every rule with a fresh Normalizer whose counter
starts at 0 and whose rules dict starts empty. -/
def normalizeL (lang : Lang) (finder : Finder) : NormOut :=
  let rules := rulesOf lang
  let (nts, redefDiags) := collectRuleNames (rules.map Prod.fst) []
  let ctx : Ctx := ⟨nts, finder⟩
  let valDiags := rules.flatMap (fun r => validate ctx r.2)
  ⟨redefDiags ++ valDiags, (runRules ctx rules ⟨[], 0⟩).map NSt.rules⟩

/-- normalize together with the caller-owned issuer it appends to: the
issuer may arrive with earlier diagnostics already collected. -/
def normalizeWithIssuer (lang : Lang) (finder : Finder) (issuer0 : List Diag) :
    List Diag × Except Unit NormLang :=
  (issuer0 ++ (normalizeL lang finder).diags, (normalizeL lang finder).result)

/-! ## Exclusive-class-free expressions -/

mutual

/-- True when the expression contains no exclusive character class (the
one construct the Normalizer refuses by assertion). -/
def noExcl : Expr → Bool
  | .lit _ => true
  | .charClass mode _ => mode = Mode.inclusive
  | .name _ _ => true
  | .concat es => noExclList es
  | .union os => noExclList os
  | .star e => noExcl e
  | .plus e => noExcl e
  | .opt e => noExcl e
  | .power e _ => noExcl e
  | .loop e _ _ => noExcl e

def noExclList : List Expr → Bool
  | [] => true
  | e :: es => noExcl e && noExclList es

end

/-- An exclusive-class-free language. -/
def noExclL : Lang → Bool
  | .expr e => noExcl e
  | .rules rs => noExclList (rs.map Prod.snd)

/-! ## Concrete inputs of the claims -/

/-- The bare regex a+ of § 8. -/
def exprAplus : Lang := .expr (.plus (.lit "a"))

/-- The one-rule grammar S: (quote a quote) A; with A undefined (§ 8). -/
def langSA : Lang := .rules [("S", .concat [.lit "a", .name "A" none])]

/-- The grammar B: (b) C | D; C: (c) | D; D: (d) | C; A: (a); of § 8. -/
def langBCDA : Lang := .rules
  [ ("B", .union [.concat [.lit "b", .name "C" none], .name "D" none]),
    ("C", .union [.lit "c", .name "D" none]),
    ("D", .union [.lit "d", .name "C" none]),
    ("A", .lit "a") ]

/-- The normal form the previous grammar normalizes to. -/
def gBCDA : NormLang :=
  [ ("B", [[.t "b", .nt "C"], [.nt "D"]]),
    ("C", [[.t "c"], [.nt "D"]]),
    ("D", [[.t "d"], [.nt "C"]]),
    ("A", [[.t "a"]]) ]

/-- The normal form of a+ as the code produces it. -/
def normAplus : NormLang :=
  [("@1", [[.t "a"], [.t "a", .nt "@1"]]), ("start", [[.nt "@1"]])]

/-! ## Escape-decoding character parsers (C7)

The two char parsers of src/flat/grammar/parsers.py (ExprParser.char,
lines 80-124) and src/flat/py/parser.py (char, lines 81-125) share their
decoding logic and differ only in failure messages.  The decoded value is
embedded as the code point handed to chr (Python chr raises ValueError
above 0x10FFFF and accepts lone surrogates; neither case is reachable in
any behaviour claimed here, and the embedding keeps the raw code point).
The Result type of the parsy library is specialized here to success
(next index, code point) or failure (failure index, expected message). -/

namespace CharParse

/-- Result of one char parse: Result.success(index, value) or
Result.failure(index, expected). -/
inductive CRes where
  | success (index : Nat) (value : Nat)
  | failure (index : Nat) (expected : String)
deriving DecidableEq, Repr

/-- string.hexdigits. -/
def hexDigits : List Char := "0123456789abcdefABCDEF".toList

/-- string.octdigits. -/
def octDigits : List Char := "01234567".toList

/-- ESCAPE_CHARS: named escapes to their code points. -/
def escCode : Char → Option Nat
  | '\\' => some 92
  | '\x27' => some 39
  | '"' => some 34
  | 'a' => some 7
  | 'b' => some 8
  | 'f' => some 12
  | 'n' => some 10
  | 'r' => some 13
  | 't' => some 9
  | 'v' => some 11
  | _ => none

/-- Indexing source[i] (always used behind a bounds check, as in the
source). -/
def cAt (s : List Char) (i : Nat) : Char := s.getD i (Char.ofNat 0)

/-- Value of one hexadecimal digit. -/
def hexDigitVal (c : Char) : Nat :=
  if 97 ≤ c.toNat then c.toNat - 87
  else if 65 ≤ c.toNat then c.toNat - 55
  else c.toNat - 48

/-- int(s, 16). -/
def hexVal (cs : List Char) : Nat := cs.foldl (fun acc c => acc * 16 + hexDigitVal c) 0

/-- int(s, 8). -/
def octVal (cs : List Char) : Nat := cs.foldl (fun acc c => acc * 8 + (c.toNat - 48)) 0

/-- Common decoding logic of the two char parsers; the messages for the
four failure spots are passed in.  Follows the source order: ordinary
character, named escape, escaped special, octal (1-3 digits), then the
three fixed-width hex forms. -/
def charCore (msgX msgU4 msgU8 msgEsc msgOrd : String)
    (special : List Char) (source : List Char) (offset : Nat) : CRes :=
  if offset < source.length ∧ cAt source offset ≠ '\\' ∧
      cAt source offset ∉ special then
    .success (offset + 1) (cAt source offset).toNat
  else if offset + 1 < source.length ∧ cAt source offset = '\\' then
    let e := cAt source (offset + 1)
    match escCode e with
    | some v => .success (offset + 2) v
    | none =>
      if e ∈ special then .success (offset + 2) e.toNat
      else if e ∈ octDigits then
        if offset + 2 < source.length ∧ cAt source (offset + 2) ∈ octDigits then
          if offset + 3 < source.length ∧ cAt source (offset + 3) ∈ octDigits then
            .success (offset + 4) (octVal ((source.drop (offset + 1)).take 3))
          else
            .success (offset + 3) (octVal ((source.drop (offset + 1)).take 2))
        else .success (offset + 2) (octVal [e])
      else if e = 'x' then
        if offset + 3 < source.length ∧
            ((source.drop (offset + 2)).take 2).all (· ∈ hexDigits) then
          .success (offset + 4) (hexVal ((source.drop (offset + 2)).take 2))
        else .failure (offset + 2) msgX
      else if e = 'u' then
        if offset + 5 < source.length ∧
            ((source.drop (offset + 2)).take 4).all (· ∈ hexDigits) then
          .success (offset + 6) (hexVal ((source.drop (offset + 2)).take 4))
        else .failure (offset + 2) msgU4
      else if e = 'U' then
        if offset + 9 < source.length ∧
            ((source.drop (offset + 2)).take 8).all (· ∈ hexDigits) then
          .success (offset + 10) (hexVal ((source.drop (offset + 2)).take 8))
        else .failure (offset + 2) msgU8
      else .failure offset msgEsc
  else .failure offset msgOrd

/-- ExprParser.char of src/flat/grammar/parsers.py. -/
def charG (special : List Char) (source : List Char) (offset : Nat) : CRes :=
  charCore
    "2 hex digits (error: invalid Unicode escape sequence)"
    "4 hex digits (error: invalid Unicode escape sequence)"
    "8 hex digits (error: invalid Unicode escape sequence)"
    "a valid escape character (error: invalid escape sequence)"
    "an ordinary character (error: invalid character)"
    special source offset

/-- char of src/flat/py/parser.py. -/
def charPy (special : List Char) (source : List Char) (offset : Nat) : CRes :=
  charCore
    "invalid Unicode escape sequence (expected 2 hex digits)"
    "invalid Unicode escape sequence (expected 4 hex digits)"
    "invalid Unicode escape sequence (expected 8 hex digits)"
    "invalid escape sequence"
    "invalid character"
    special source offset

end CharParse

/-! ## The parsy combinator subset (C8)

Modelled from the spec: the parsy library is an external dependency whose
code is not part of this repository; the subset below (Result with
furthest-failure and expected-set tracking, bind/seq/alt/times and the
derived combinators, and Parser.parse raising ParseError on failure) is
modelled from its documented behaviour.  A Result is specialized to
ok (next index, value, furthest failure index, expected set) or
err (furthest failure index, expected set); a fresh success carries
furthest -1 and an empty set, a fresh failure at index i carries furthest
i and the singleton expected message, and aggregation keeps the furthest
failure data, merging the expected sets at ties.  The expected frozenset
is carried as a duplicate-free list; sorting happens only where a caller
sorts.  Unbounded repetition (many) is run with remaining-input fuel:
Python would loop forever on a non-consuming success, a case none of the
parsers below reach. -/

namespace Parsy

/-- Result: ok (index, value, furthest, expected) or err (furthest,
expected). -/
inductive Res (α : Type) where
  | ok (index : Nat) (value : α) (furthest : Int) (expected : List String)
  | err (furthest : Int) (expected : List String)

/-- Union of two expected sets, keeping first-occurrence order. -/
def unionE (a b : List String) : List String := a ++ b.filter (fun x => x ∉ a)

/-- The furthest/expected data of a result. -/
def feOf {α : Type} : Res α → Int × List String
  | .ok _ _ f e => (f, e)
  | .err f e => (f, e)

/-- Result.aggregate with another result's furthest/expected data. -/
def aggP {α : Type} : Res α → Int × List String → Res α
  | .ok i v f e, (f2, e2) =>
    if f2 < f then .ok i v f e
    else if f = f2 then .ok i v f (unionE e e2)
    else .ok i v f2 e2
  | .err f e, (f2, e2) =>
    if f2 < f then .err f e
    else if f = f2 then .err f (unionE e e2)
    else .err f2 e2

/-- A parser: stream and index to Result. -/
def Parser (α : Type) : Type := List Char → Nat → Res α

/-- success(value): consume nothing. -/
def pureP {α : Type} (v : α) : Parser α := fun _ i => .ok i v (-1) []

/-- Parser.bind. -/
def bindP {α β : Type} (p : Parser α) (f : α → Parser β) : Parser β := fun s i =>
  match p s i with
  | .err fu e => .err fu e
  | .ok i1 v fu e => aggP (f v s i1) (fu, e)

/-- Parser.map. -/
def mapP {α β : Type} (p : Parser α) (f : α → β) : Parser β :=
  bindP p (fun v => pureP (f v))

/-- seq of two parsers (every seq in the embedded sources is binary). -/
def seq2 {α β : Type} (p : Parser α) (q : Parser β) : Parser (α × β) := fun s i =>
  match p s i with
  | .err fu e => .err fu e
  | .ok i1 v1 f1 e1 =>
    match aggP (q s i1) (f1, e1) with
    | .err fu e => .err fu e
    | .ok i2 v2 f2 e2 => aggP (.ok i2 (v1, v2) (-1) []) (f2, e2)

/-- seq(p, q).combine(f). -/
def combine2 {α β γ : Type} (p : Parser α) (q : Parser β) (f : α → β → γ) :
    Parser γ :=
  mapP (seq2 p q) (fun pr => f pr.1 pr.2)

/-- The then operator p >> q. -/
def thenP {α β : Type} (p : Parser α) (q : Parser β) : Parser β :=
  combine2 p q (fun _ r => r)

/-- The skip operator p << q. -/
def skipP {α β : Type} (p : Parser α) (q : Parser β) : Parser α :=
  combine2 p q (fun l _ => l)

/-- p.result(v). -/
def resultP {α β : Type} (p : Parser α) (v : β) : Parser β := thenP p (pureP v)

/-- Alternation p | q, aggregating the failure data of the first branch
into whatever the second produces. -/
def altP {α : Type} (p q : Parser α) : Parser α := fun s i =>
  match p s i with
  | .ok i1 v f e => .ok i1 v f e
  | .err f e => aggP (q s i) (f, e)

/-- The while loop of Parser.times: run up to the fuel bound, stop early
at a failure (failing the whole parse when below the minimum), and
aggregate along the way. -/
def timesLoop {α : Type} (p : Parser α) (s : List Char) (minc : Nat) :
    Nat → Nat → List α → Nat → Option (Int × List String) → Res (List α)
  | 0, idx, acc, _, fe =>
    match fe with
    | none => .ok idx acc.reverse (-1) []
    | some f => aggP (.ok idx acc.reverse (-1) []) f
  | fuel + 1, idx, acc, cnt, fe =>
    let r := match fe with
             | none => p s idx
             | some f => aggP (p s idx) f
    match r with
    | .ok i2 v f2 e2 => timesLoop p s minc fuel i2 (v :: acc) (cnt + 1) (some (f2, e2))
    | .err f2 e2 =>
      if minc ≤ cnt then aggP (.ok idx acc.reverse (-1) []) (f2, e2)
      else .err f2 e2

/-- Parser.times(min, max); max = none is unbounded (fuel = remaining
input plus one). -/
def timesP {α : Type} (p : Parser α) (minc : Nat) (maxc : Option Nat) :
    Parser (List α) := fun s i =>
  timesLoop p s minc
    (match maxc with | some m => m | none => s.length + 1 - i) i [] 0 none

/-- Parser.many. -/
def manyP {α : Type} (p : Parser α) : Parser (List α) := timesP p 0 none

/-- Parser.optional(default). -/
def optionalD {α : Type} (p : Parser α) (default : α) : Parser α :=
  mapP (timesP p 0 (some 1)) (fun l => l.headD default)

/-- Parser.optional() with the None default. -/
def optionalP {α : Type} (p : Parser α) : Parser (Option α) :=
  mapP (timesP p 0 (some 1)) (fun l => l.head?)

/-- The + operator on list-valued parsers: seq(p, q).combine(append). -/
def addP {α : Type} (p q : Parser (List α)) : Parser (List α) :=
  combine2 p q (fun a b => a ++ b)

/-- Parser.at_least(1): times(1) + many(). -/
def atLeast1 {α : Type} (p : Parser α) : Parser (List α) :=
  addP (timesP p 1 (some 1)) (manyP p)

/-- Parser.sep_by(sep, min=1): times(1) + (sep >> p).times(0, inf). -/
def sepBy1 {α β : Type} (p : Parser α) (sep : Parser β) : Parser (List α) :=
  addP (timesP p 1 (some 1)) (timesP (thenP sep p) 0 none)

/-- parsy.string(s): succeed on a literal prefix, else fail expecting
that string. -/
def stringP (str : String) : Parser String := fun s i =>
  if (s.drop i).take str.length = str.toList then .ok (i + str.length) str (-1) []
  else .err i [str]

/-- parsy.eof. -/
def eofP : Parser Unit := fun s i =>
  if s.length ≤ i then .ok i () (-1) [] else .err i ["EOF"]

/-- Parser.parse: (self << eof).parse_partial, raising ParseError with
the expected set and the furthest index on failure. -/
def runParse {α : Type} (p : Parser α) (s : List Char) :
    Except (Int × List String) α :=
  match skipP p eofP s 0 with
  | .ok _ v _ _ => .ok v
  | .err f e => .error (f, e)

/-- parsy.line_info_at: zero-based (row, column) of an index. -/
def lineInfoAt (s : List Char) (idx : Nat) : Nat × Nat :=
  let before := s.take idx
  (before.count '\n', (before.reverse.takeWhile (fun c => c ≠ '\n')).length)

end Parsy

/-! ## flat/grammar/parsers.py: CFGParser and parse_CFG (C8)

The AST nodes carry no locations (set_loc attaches one to the produced
node and rebuilds a fresh success, which is what the embedding keeps of
it).  CFGParser is embedded with its constructor arguments as parse_CFG
passes them: whitespace = string.whitespace, angled = True. -/

namespace GramP

open Parsy

/-- Item of a character class: a char or a CharRange. -/
inductive GItem where
  | ch (c : Char)
  | range (l u : Char)
deriving Repr

/-- The Expr nodes of src/flat/grammar/ast.py (mode kept as the string
the parser produces). -/
inductive GExpr where
  | lit (value : String)
  | charClass (mode : String) (items : List GItem)
  | symbol (id : String)
  | concat (es : List GExpr)
  | union (os : List GExpr)
  | star (e : GExpr)
  | plus (e : GExpr)
  | opt (e : GExpr)
  | power (e : GExpr) (n : Nat)
  | loop (e : GExpr) (lower : Nat) (upper : Option Nat)
deriving Repr

/-- A production rule (the name is the parsed Symbol node). -/
structure GRule where
  name : GExpr
  body : GExpr
deriving Repr

/-- string.whitespace. -/
def pyWhitespace : List Char := [' ', '\t', '\n', '\r', '\x0B', '\x0C']

/-- skip_whitespace: advance while the character is whitespace (fuel is
the remaining input, enough for the scan). -/
def skipWsAux (ws s : List Char) : Nat → Nat → Nat
  | 0, off => off
  | fuel + 1, off =>
    if off < s.length ∧ CharParse.cAt s off ∈ ws then skipWsAux ws s fuel (off + 1)
    else off

def skipWs (ws s : List Char) (off : Nat) : Nat := skipWsAux ws s (s.length - off) off

/-- ExprParser.literal: skip whitespace, match the string, else fail with
the string itself as the expected message. -/
def literalG (str : String) : Parser String := fun s i =>
  let off := skipWs pyWhitespace s i
  if (s.drop off).take str.length = str.toList then
    .ok (off + str.length) str (-1) []
  else .err off [str]

/-- ExprParser.set_loc: skip whitespace, run the parser, and on success
rebuild a fresh success (the attached location is dropped here). -/
def setLocG {α : Type} (p : Parser α) : Parser α := fun s i =>
  let off := skipWs pyWhitespace s i
  match p s off with
  | .ok j v _ _ => .ok j v (-1) []
  | .err f e => .err f e

/-- Character class of the identifier regex [A-Za-z0-9_-]. -/
def isSymChar (c : Char) : Bool :=
  (65 ≤ c.toNat && c.toNat ≤ 90) || (97 ≤ c.toNat && c.toNat ≤ 122) ||
  (48 ≤ c.toNat && c.toNat ≤ 57) || c = '_' || c = '-'

/-- ExprParser.regex for the pattern [A-Za-z0-9_-]+ (greedy match at the
offset, as re.match does). -/
def regexSym : Parser String := fun s i =>
  let off := skipWs pyWhitespace s i
  let run := (s.drop off).takeWhile isSymChar
  if run.length = 0 then .err off ["pattern [A-Za-z0-9_-]+"]
  else .ok (off + run.length) (String.mk run) (-1) []

/-- ExprParser.regex for the pattern <[A-Za-z0-9_-]+>. -/
def regexAngled : Parser String := fun s i =>
  let off := skipWs pyWhitespace s i
  match s.drop off with
  | '<' :: rs =>
    let run := rs.takeWhile isSymChar
    if run.length = 0 then .err off ["pattern <[A-Za-z0-9_-]+>"]
    else if rs.getD run.length (Char.ofNat 0) = '>' then
      .ok (off + run.length + 2) (String.mk ('<' :: (run ++ ['>']))) (-1) []
    else .err off ["pattern <[A-Za-z0-9_-]+>"]
  | _ => .err off ["pattern <[A-Za-z0-9_-]+>"]

/-- ExprParser.regex for the pattern [0-9]+. -/
def regexNum : Parser String := fun s i =>
  let off := skipWs pyWhitespace s i
  let run := (s.drop off).takeWhile (fun c => 48 ≤ c.toNat && c.toNat ≤ 57)
  if run.length = 0 then .err off ["pattern [0-9]+"]
  else .ok (off + run.length) (String.mk run) (-1) []

/-- int() on a digit string. -/
def decVal (cs : List Char) : Nat := cs.foldl (fun acc c => acc * 10 + (c.toNat - 48)) 0

/-- CFGParser.symbol with angled = True: a bare identifier, or an angled
one with the brackets stripped. -/
def symbolP : Parser GExpr :=
  altP (setLocG (mapP regexSym GExpr.symbol))
       (setLocG (mapP regexAngled
         (fun s => GExpr.symbol (String.mk ((s.toList.drop 1).dropLast)))))

/-- The repository char parser wrapped as a parsy parser (Char.ofNat for
chr; the difference above 0x10FFFF is unreachable here). -/
def charP (special : List Char) : Parser Char := fun s i =>
  match CharParse.charG special s i with
  | .success j v => .ok j (Char.ofNat v) (-1) []
  | .failure j msg => .err j [msg]

/-- ExprParser.char_seq. -/
def charSeq (special : List Char) : Parser String :=
  mapP (manyP (charP special)) (fun cs => String.mk cs)

/-- ExprParser.char_class. -/
def charClassP : Parser GExpr :=
  let mode := optionalD (resultP (stringP "^") "exclusive") "inclusive"
  let literal := charP ['[', ']', '-']
  let rangeP := setLocG (combine2 literal (thenP (stringP "-") literal) GItem.range)
  let items := atLeast1 (altP rangeP (mapP literal GItem.ch))
  setLocG (skipP (thenP (literalG "[") (combine2 mode items GExpr.charClass))
    (stringP "]"))

/-- ExprParser.paren. -/
def parenP {α : Type} (p : Parser α) : Parser α :=
  skipP (thenP (literalG "(") p) (literalG ")")

/-- ExprParser.brace. -/
def braceP {α : Type} (p : Parser α) : Parser α :=
  skipP (thenP (literalG "\x7b") p) (literalG "\x7d")

/-- num = regex([0-9]+).map(int). -/
def numP : Parser Nat := mapP regexNum (fun s => decVal s.toList)

/-- The braced NatRange {m,n} / {m,} / {,n} / {,}. -/
def natRangeP : Parser (Nat × Option Nat) :=
  setLocG (braceP (combine2 (optionalD numP 0) (thenP (literalG ",") (optionalP numP))
    (fun a b => (a, b))))

/-- postfix_op = alt(star, plus, optional, power, loop), left to right. -/
def postfixOp : Parser (GExpr → GExpr) :=
  altP (altP (altP (altP
    (resultP (literalG "*") GExpr.star)
    (resultP (literalG "+") GExpr.plus))
    (resultP (literalG "?") GExpr.opt))
    (mapP (braceP numP) (fun n => fun e => GExpr.power e n)))
    (mapP natRangeP (fun r => fun e => GExpr.loop e r.1 r.2))

/-- CFGParser.atomic: quoted literal, character class or symbol. -/
def atomicP : Parser GExpr :=
  let singleQ := skipP (thenP (literalG "\x27") (charSeq ['\x27'])) (stringP "\x27")
  let doubleQ := skipP (thenP (literalG "\"") (charSeq ['"'])) (stringP "\"")
  let constant := setLocG (mapP (altP singleQ doubleQ) GExpr.lit)
  altP (altP constant charClassP) symbolP

/-- ExprParser.expr: the forward-declared union of concats of postfixed
atoms; the parenthesized recursion consumes fuel. -/
def exprP : Nat → Parser GExpr
  | 0 => fun _ i => .err (Int.ofNat i) ["fuel"]
  | fuel + 1 =>
    let base := altP atomicP (parenP (exprP fuel))
    let element := setLocG (combine2 base (optionalP postfixOp)
      (fun e f => match f with | some fn => fn e | none => e))
    let concatP := setLocG (mapP (atLeast1 element)
      (fun es => match es with | [e] => e | _ => GExpr.concat es))
    setLocG (mapP (sepBy1 concatP (literalG "|"))
      (fun es => match es with | [e] => e | _ => GExpr.union es))

/-- CFGParser.cfg: one or more rules, then trailing whitespace (the empty
literal skips it). -/
def ruleP (fuel : Nat) : Parser GRule :=
  setLocG (combine2 symbolP
    (skipP (thenP (literalG ":") (exprP fuel)) (literalG ";")) GRule.mk)

def cfgP (fuel : Nat) : Parser (List GRule) :=
  skipP (atLeast1 (ruleP fuel)) (literalG "")

/-- Segments of a character list between newline characters. -/
def splitOnNl : List Char → List (List Char)
  | [] => [[]]
  | c :: rest =>
    if c = '\n' then [] :: splitOnNl rest
    else
      match splitOnNl rest with
      | [] => [[c]]
      | seg :: segs => (c :: seg) :: segs

/-- str.splitlines restricted to newline separators (the only ones the
embedded runs contain): no trailing empty line for a trailing newline,
and the empty string has no lines. -/
def splitlines (s : String) : List String :=
  match s.toList with
  | [] => []
  | cs =>
    let parts := (splitOnNl cs).map (fun l => String.mk l)
    if cs.getLast? = some '\n' then parts.dropLast else parts

/-- What parse_CFG raises: a SyntaxError carrying the ParseError data and
the quoted code line with its caret (message formatting elided), or the
IndexError of source.splitlines()[row] on an empty line list. -/
inductive PyExc where
  | synError (expected : List String) (index : Nat) (row col : Nat)
      (codeLine caretLine : String)
  | indexError
deriving Repr

/-- parse_CFG: run the parser; on ParseError, build the code line and
caret and raise SyntaxError (the error case of the Except). -/
def parseCFG (fuel : Nat) (source : String) : Except PyExc (List GRule) :=
  match runParse (cfgP fuel) source.toList with
  | .ok rs => .ok rs
  | .error (f, e) =>
    let idx := f.toNat
    let rc := lineInfoAt source.toList idx
    match (splitlines source).get? rc.1 with
    | none => .error .indexError
    | some codeLine =>
      .error (.synError e idx rc.1 rc.2 codeLine
        (String.mk (List.replicate rc.2 ' ') ++ "^"))

/-- Whether the entry point raised instead of returning. -/
def didRaise : Except PyExc (List GRule) → Bool
  | .error _ => true
  | .ok _ => false

end GramP

/-! ## flat/py/parser.py: parse for the ebnf and regex formats (C8)

Same structure as the flat/grammar family, with this module's failure
messages (bracketed expectations, named regexes), Ref instead of Symbol,
and the parse entry point that catches ParseError and returns an
InvalidSyntax value.  The whitespace set is the constructor argument:
string.whitespace for EBNFParser, empty for RegexParser.  The apostrophes
of the bracketed messages are written with the x27 escape. -/

namespace PyP

open Parsy

/-- Items and Expr nodes of src/src/flat/py/grammar.py (the module the
parser imports), locations dropped. -/
inductive PItem where
  | ch (c : Char)
  | range (l u : Char)
deriving Repr

inductive PExpr where
  | lit (value : String)
  | charClass (mode : String) (items : List PItem)
  | ref (name : String)
  | concat (es : List PExpr)
  | union (os : List PExpr)
  | star (e : PExpr)
  | plus (e : PExpr)
  | opt (e : PExpr)
  | power (e : PExpr) (n : Nat)
  | loop (e : PExpr) (lower : Nat) (upper : Option Nat)
deriving Repr

structure PRule where
  name : PExpr
  body : PExpr
deriving Repr

/-- The module-level expect: no whitespace skip, bracketed-quoted
expected message. -/
def brExp (s : String) : String := "[\x27" ++ s ++ "\x27]"

def expectP (str : String) : Parser String := fun s i =>
  if (s.drop i).take str.length = str.toList then .ok (i + str.length) str (-1) []
  else .err i [brExp str]

/-- ExprParser.literal: whitespace skip, bracketed-quoted message. -/
def literalP (ws : List Char) (str : String) : Parser String := fun s i =>
  let off := GramP.skipWs ws s i
  if (s.drop off).take str.length = str.toList then
    .ok (off + str.length) str (-1) []
  else .err off [brExp str]

/-- ExprParser.set_loc (location dropped, fresh success rebuilt). -/
def setLocP {α : Type} (ws : List Char) (p : Parser α) : Parser α := fun s i =>
  let off := GramP.skipWs ws s i
  match p s off with
  | .ok j v _ _ => .ok j v (-1) []
  | .err f e => .err f e

/-- ExprParser.regex for [A-Za-z0-9_-]+, named identifier. -/
def regexIdent (ws : List Char) : Parser String := fun s i =>
  let off := GramP.skipWs ws s i
  let run := (s.drop off).takeWhile GramP.isSymChar
  if run.length = 0 then .err off ["[identifier]"]
  else .ok (off + run.length) (String.mk run) (-1) []

/-- ExprParser.regex for <[A-Za-z0-9_-]+>, named identifier. -/
def regexAngledIdent (ws : List Char) : Parser String := fun s i =>
  let off := GramP.skipWs ws s i
  match s.drop off with
  | '<' :: rs =>
    let run := rs.takeWhile GramP.isSymChar
    if run.length = 0 then .err off ["[identifier]"]
    else if rs.getD run.length (Char.ofNat 0) = '>' then
      .ok (off + run.length + 2) (String.mk ('<' :: (run ++ ['>']))) (-1) []
    else .err off ["[identifier]"]
  | _ => .err off ["[identifier]"]

/-- ExprParser.regex for [0-9]+, named number. -/
def regexNumber (ws : List Char) : Parser String := fun s i =>
  let off := GramP.skipWs ws s i
  let run := (s.drop off).takeWhile (fun c => 48 ≤ c.toNat && c.toNat ≤ 57)
  if run.length = 0 then .err off ["[number]"]
  else .ok (off + run.length) (String.mk run) (-1) []

/-- The module-level char wrapped as a parser. -/
def charP (special : List Char) : Parser Char := fun s i =>
  match CharParse.charPy special s i with
  | .success j v => .ok j (Char.ofNat v) (-1) []
  | .failure j msg => .err j [msg]

/-- char_seq. -/
def charSeq (special : List Char) : Parser String :=
  mapP (manyP (charP special)) (fun cs => String.mk cs)

/-- ExprParser.char_class. -/
def charClassP (ws : List Char) : Parser PExpr :=
  let mode := optionalD (resultP (expectP "^") "exclusive") "inclusive"
  let literal := charP ['[', ']', '-']
  let rangeP := setLocP ws (combine2 literal (thenP (expectP "-") literal) PItem.range)
  let items := atLeast1 (altP rangeP (mapP literal PItem.ch))
  setLocP ws (skipP (thenP (literalP ws "[") (combine2 mode items PExpr.charClass))
    (expectP "]"))

def parenP {α : Type} (ws : List Char) (p : Parser α) : Parser α :=
  skipP (thenP (literalP ws "(") p) (literalP ws ")")

def braceP {α : Type} (ws : List Char) (p : Parser α) : Parser α :=
  skipP (thenP (literalP ws "\x7b") p) (literalP ws "\x7d")

def numP (ws : List Char) : Parser Nat :=
  mapP (regexNumber ws) (fun s => GramP.decVal s.toList)

def natRangeP (ws : List Char) : Parser (Nat × Option Nat) :=
  setLocP ws (braceP ws (combine2 (optionalD (numP ws) 0)
    (thenP (literalP ws ",") (optionalP (numP ws))) (fun a b => (a, b))))

def postfixOp (ws : List Char) : Parser (PExpr → PExpr) :=
  altP (altP (altP (altP
    (resultP (literalP ws "*") PExpr.star)
    (resultP (literalP ws "+") PExpr.plus))
    (resultP (literalP ws "?") PExpr.opt))
    (mapP (braceP ws (numP ws)) (fun n => fun e => PExpr.power e n)))
    (mapP (natRangeP ws) (fun r => fun e => PExpr.loop e r.1 r.2))

/-- The shared expr combinator over a given atomic parser. -/
def exprP (ws : List Char) (atomicP : Parser PExpr) : Nat → Parser PExpr
  | 0 => fun _ i => .err (Int.ofNat i) ["fuel"]
  | fuel + 1 =>
    let base := altP atomicP (parenP ws (exprP ws atomicP fuel))
    let element := setLocP ws (combine2 base (optionalP (postfixOp ws))
      (fun e f => match f with | some fn => fn e | none => e))
    let concatP := setLocP ws (mapP (atLeast1 element)
      (fun es => match es with | [e] => e | _ => PExpr.concat es))
    setLocP ws (mapP (sepBy1 concatP (literalP ws "|"))
      (fun es => match es with | [e] => e | _ => PExpr.union es))

/-- EBNFParser.symbol with angled = True. -/
def symbolEbnf : Parser PExpr :=
  altP (setLocP GramP.pyWhitespace (mapP (regexIdent GramP.pyWhitespace) PExpr.ref))
       (setLocP GramP.pyWhitespace (mapP (regexAngledIdent GramP.pyWhitespace)
         (fun s => PExpr.ref (String.mk ((s.toList.drop 1).dropLast)))))

/-- EBNFParser.atomic. -/
def atomicEbnf : Parser PExpr :=
  let ws := GramP.pyWhitespace
  let singleQ := skipP (thenP (literalP ws "\x27") (charSeq ['\x27'])) (expectP "\x27")
  let doubleQ := skipP (thenP (literalP ws "\"") (charSeq ['"'])) (expectP "\"")
  let constant := setLocP ws (mapP (altP singleQ doubleQ) PExpr.lit)
  altP (altP constant (charClassP ws)) symbolEbnf

/-- EBNFParser.grammar. -/
def grammarEbnf (fuel : Nat) : Parser (List PRule) :=
  let ws := GramP.pyWhitespace
  let rule := setLocP ws (combine2 symbolEbnf
    (skipP (thenP (literalP ws ":") (exprP ws atomicEbnf fuel)) (literalP ws ";"))
    PRule.mk)
  skipP (atLeast1 rule) (literalP ws "")

/-- RegexParser.atomic: a single (possibly escaped) character as a
literal, or a character class; no whitespace skipping. -/
def atomicRegex : Parser PExpr :=
  let constant := setLocP []
    (mapP (charP ['.', '^', '$', '*', '+', '?', '{', '}', '[', ']', '(', ')', '|'])
      (fun c => PExpr.lit (String.mk [c])))
  altP constant (charClassP [])

/-- RegexParser.grammar: one expression as the synthesized start rule. -/
def grammarRegex (fuel : Nat) : Parser (List PRule) :=
  mapP (exprP [] atomicRegex fuel) (fun e => [PRule.mk (PExpr.ref "start") e])

/-- Lexicographic code-point comparison (the Python string order). -/
def strLe : List Char → List Char → Bool
  | [], _ => true
  | _ :: _, [] => false
  | c :: as2, d :: bs =>
    if c.toNat < d.toNat then true
    else if d.toNat < c.toNat then false
    else strLe as2 bs

/-- Insertion sort by the string order (sorted() of the handler; stable,
and equal strings are identical, so this is the Python result). -/
def insertSorted (x : String) : List String → List String
  | [] => [x]
  | y :: ys => if strLe x.toList y.toList then x :: y :: ys else y :: insertSorted x ys

def sortStr : List String → List String
  | [] => []
  | x :: xs => insertSorted x (sortStr xs)

/-- startswith([) and endswith(]). -/
def isBracketed (s : String) : Bool :=
  s.toList.head? = some '[' ∧ s.toList.getLast? = some ']'

/-- The handler loop: strip the brackets of bracketed entries in place,
collect every other non-EOF entry as a message. -/
def stripAndMsgs : List String → List String × List String
  | [] => ([], [])
  | s :: rest =>
    let p := stripAndMsgs rest
    if isBracketed s then ((String.mk ((s.toList.drop 1).dropLast)) :: p.1, p.2)
    else if s ≠ "EOF" then (s :: p.1, s :: p.2)
    else (s :: p.1, p.2)

def joinComma : List String → String
  | [] => ""
  | [s] => s
  | s :: rest => s ++ ", " ++ joinComma rest

/-- Message selection of the handler; the error case is the assert False
on multiple messages (an AssertionError raised instead of returning). -/
def pyMsg (expectedSorted : List String) : Except Unit String :=
  let p := stripAndMsgs expectedSorted
  match p.2 with
  | [m] => .ok m
  | _ :: _ :: _ => .error ()
  | [] =>
    match p.1 with
    | [m] => .ok ("expected " ++ m)
    | el => .ok ("expected one of " ++ joinComma el)

/-- The InvalidSyntax value parse returns: the Diagnostic message and the
zero-based position start_pos + line_info_at (the default start position
(0,0) and the default file path are fixed here). -/
structure PyInvalid where
  msg : String
  row : Nat
  col : Nat
deriving Repr

inductive PFormat where
  | ebnf
  | regex

/-- parse of flat/py/parser.py: run the format parser; on ParseError,
sort the expected set, strip brackets, pick the message (asserting on
multiple messages) and return an InvalidSyntax value.  Raising is the
Except error; a returned value, grammar or InvalidSyntax alike, is ok. -/
def parsePy (fuel : Nat) (fmt : PFormat) (source : String) :
    Except Unit (List PRule ⊕ PyInvalid) :=
  let parser := match fmt with
    | PFormat.ebnf => grammarEbnf fuel
    | PFormat.regex => grammarRegex fuel
  match runParse parser source.toList with
  | .ok rs => .ok (Sum.inl rs)
  | .error fe =>
    match pyMsg (sortStr fe.2) with
    | .error e => .error e
    | .ok msg =>
      let rc := lineInfoAt source.toList fe.1.toNat
      .ok (Sum.inr ⟨"Invalid syntax: " ++ msg, rc.1, rc.2⟩)

/-- Whether parse returned an InvalidSyntax value (not a raise). -/
def returnedInvalid : Except Unit (List PRule ⊕ PyInvalid) → Bool
  | .ok (Sum.inr _) => true
  | _ => false

end PyP

/-! ## Correctness of the BFS loop of project -/

theorem Reach.src_isKey {g : NormLang} {u t : String} (h : Reach g u t) :
    isKey g u := by
  cases h with
  | refl _ h => exact h
  | step _ _ _ hu _ _ => exact hu

theorem Reach.tgt_isKey {g : NormLang} {u t : String} (h : Reach g u t) :
    isKey g t := by
  induction h with
  | refl _ h => exact h
  | step _ _ _ _ _ _ ih => exact ih

/-- Soundness of the BFS loop: everything in the result is either already
reached or reachable from a queued id. -/
theorem bfs_sound (g : NormLang) (queue reach : List String) (t : String)
    (ht : t ∈ bfs g queue reach) :
    t ∈ reach ∨ ∃ q ∈ queue, Reach g q t := by
  induction queue, reach using bfs.induct g with
  | case1 reach =>
    rw [bfs] at ht
    exact Or.inl ht
  | case2 id rest reach h ih =>
    rw [bfs, dif_pos h] at ht
    rcases ih ht with hr | ⟨q, hq, hreach⟩
    · rcases List.mem_append.mp hr with hr | hr
      · exact Or.inl hr
      · rcases (by simpa using hr : t = id) with rfl
        exact Or.inr ⟨t, by simp, Reach.refl t h.1⟩
    · rcases List.mem_append.mp hq with hq | hq
      · exact Or.inr ⟨q, by simp [hq], hreach⟩
      · have hmem := List.mem_filter.mp hq
        exact Or.inr ⟨id, by simp,
          Reach.step id q t h.1 hmem.1 hreach⟩
  | case3 id rest reach h ih =>
    rw [bfs, dif_neg h] at ht
    rcases ih ht with hr | ⟨q, hq, hreach⟩
    · exact Or.inl hr
    · exact Or.inr ⟨q, by simp [hq], hreach⟩

/-- The reached set only grows. -/
theorem bfs_subset (g : NormLang) (queue reach : List String) (t : String)
    (ht : t ∈ reach) : t ∈ bfs g queue reach := by
  induction queue, reach using bfs.induct g with
  | case1 reach => rw [bfs]; exact ht
  | case2 id rest reach h ih => rw [bfs, dif_pos h]; exact ih (by simp [ht])
  | case3 id rest reach h ih => rw [bfs, dif_neg h]; exact ih ht

/-- A set closed under key successors contains everything reachable from
its members. -/
theorem closed_reach (g : NormLang) (reach : List String)
    (hcl : ∀ u ∈ reach, ∀ v ∈ collectNonterminals (altsOf g u), isKey g v →
      v ∈ reach) {u t : String} (h : Reach g u t) (hu : u ∈ reach) :
    t ∈ reach := by
  induction h with
  | refl _ _ => exact hu
  | step a v t ha hv htail ih => exact ih (hcl a hu v hv htail.src_isKey)

/-- Completeness of the BFS loop under the invariant: everything reachable
from a reached or queued id ends up in the result. -/
theorem bfs_complete (g : NormLang) (queue reach : List String)
    (hinv : BfsInv g queue reach) (u t : String) (hu : u ∈ reach ++ queue)
    (hr : Reach g u t) : t ∈ bfs g queue reach := by
  induction queue, reach using bfs.induct g with
  | case1 reach =>
    rw [bfs]
    refine closed_reach g reach ?_ hr (by simpa using hu)
    intro a ha v hv hkey
    rcases hinv a ha v hv hkey with h | h
    · exact h
    · simp at h
  | case2 id rest reach h ih =>
    rw [bfs, dif_pos h]
    refine ih ?_ ?_
    · intro a ha v hv hkey
      rcases List.mem_append.mp ha with ha | ha
      · rcases hinv a ha v hv hkey with hx | hx
        · exact Or.inl (by simp [hx])
        · rcases List.mem_cons.mp hx with hx | hx
          · exact Or.inl (by simp [hx])
          · exact Or.inr (by simp [hx])
      · have ha : a = id := by simpa using ha
        subst ha
        by_cases hv2 : v ∈ reach ++ [a]
        · exact Or.inl hv2
        · exact Or.inr (List.mem_append.mpr (Or.inr (List.mem_filter.mpr
            ⟨hv, by simpa using hv2⟩)))
    · rcases List.mem_append.mp hu with hx | hx
      · exact List.mem_append.mpr (Or.inl (by simp [hx]))
      · rcases List.mem_cons.mp hx with hx | hx
        · exact List.mem_append.mpr (Or.inl (by simp [hx]))
        · exact List.mem_append.mpr (Or.inr (List.mem_append.mpr (Or.inl hx)))
  | case3 id rest reach h ih =>
    rw [bfs, dif_neg h]
    rcases Decidable.not_and_iff_or_not.mp h with hkey | hmem
    · refine ih ?_ ?_
      · intro a ha v hv hkey2
        rcases hinv a ha v hv hkey2 with hx | hx
        · exact Or.inl hx
        · rcases List.mem_cons.mp hx with hx | hx
          · subst hx; exact absurd hkey2 (by simpa using hkey)
          · exact Or.inr hx
      · rcases List.mem_append.mp hu with hx | hx
        · exact List.mem_append.mpr (Or.inl hx)
        · rcases List.mem_cons.mp hx with hx | hx
          · subst hx; exact absurd hr.src_isKey (by simpa using hkey)
          · exact List.mem_append.mpr (Or.inr hx)
    · have hid : id ∈ reach := Decidable.not_not.mp hmem
      refine ih ?_ ?_
      · intro a ha v hv hkey2
        rcases hinv a ha v hv hkey2 with hx | hx
        · exact Or.inl hx
        · rcases List.mem_cons.mp hx with hx | hx
          · exact Or.inl (hx ▸ hid)
          · exact Or.inr hx
      · rcases List.mem_append.mp hu with hx | hx
        · exact List.mem_append.mpr (Or.inl hx)
        · rcases List.mem_cons.mp hx with hx | hx
          · exact List.mem_append.mpr (Or.inl (hx ▸ hid))
          · exact List.mem_append.mpr (Or.inr hx)

/-- Exact characterization of the reachable set computed by project. -/
theorem bfs_spec (g : NormLang) (s t : String) :
    t ∈ bfs g [s] [] ↔ Reach g s t := by
  constructor
  · intro h
    rcases bfs_sound g [s] [] t h with h | ⟨q, hq, hr⟩
    · simp at h
    · have : q = s := by simpa using hq
      exact this ▸ hr
  · intro h
    exact bfs_complete g [s] [] (by intro u hu; simp at hu) s t (by simp) h

/-! ## Lookup lemmas for the association-list dict -/

theorem lookupN_eq_none_of_not_mem {g : NormLang} {k : String}
    (h : k ∉ g.map Prod.fst) : lookupN g k = none := by
  induction g with
  | nil => rfl
  | cons p rest ih =>
    obtain ⟨k2, v⟩ := p
    simp only [List.map_cons, List.mem_cons] at h
    push_neg at h
    simp only [lookupN]
    rw [if_neg (fun hh => h.1 hh.symm)]
    exact ih h.2

theorem lookupN_filter (g : NormLang) (hnd : (g.map Prod.fst).Nodup)
    (P : String → Bool) (k : String) :
    lookupN (g.filter (fun p => P p.1)) k =
      if P k then lookupN g k else none := by
  induction g with
  | nil => simp [lookupN]
  | cons p rest ih =>
    obtain ⟨k2, v⟩ := p
    simp only [List.map_cons, List.nodup_cons] at hnd
    by_cases hk : k2 = k
    · subst hk
      by_cases hp : P k2
      · rw [List.filter_cons_of_pos (by simpa using hp)]
        simp [lookupN, hp]
      · rw [List.filter_cons_of_neg (by simpa using hp), if_neg (by simpa using hp)]
        have : lookupN (List.filter (fun p => P p.1) rest) k2 = none := by
          apply lookupN_eq_none_of_not_mem
          intro hmem
          exact hnd.1 (by
            rcases List.mem_map.mp hmem with ⟨q, hq, hq2⟩
            exact List.mem_map.mpr ⟨q, (List.mem_filter.mp hq).1, hq2⟩)
        rw [this]
    · by_cases hp : P k2
      · rw [List.filter_cons_of_pos (by simpa using hp)]
        simp only [lookupN, if_neg hk]
        exact ih hnd.2
      · rw [List.filter_cons_of_neg (by simpa using hp)]
        rw [ih hnd.2]
        simp only [lookupN, if_neg hk]

theorem projectN_lookup (g : NormLang) (hnd : (g.map Prod.fst).Nodup)
    (s t : String) :
    lookupN (projectN g s) t =
      if t ∈ bfs g [s] [] then lookupN g t else none := by
  unfold projectN
  have := lookupN_filter g hnd (fun k => decide (k ∈ bfs g [s] [])) t
  simpa using this

/-- Keys of the projection are exactly the reachable ids. -/
theorem projectN_isKey (g : NormLang) (hnd : (g.map Prod.fst).Nodup)
    (s t : String) : isKey (projectN g s) t ↔ Reach g s t := by
  rw [isKey, projectN_lookup g hnd s t]
  by_cases h : t ∈ bfs g [s] []
  · rw [if_pos h]
    have hr := (bfs_spec g s t).mp h
    have hk : isKey g t := hr.tgt_isKey
    simp only [isKey] at hk
    simp [hk, hr]
  · rw [if_neg h]
    simp [(bfs_spec g s t).not.mp h]

theorem Reach.snoc {g : NormLang} {s u v : String} (h : Reach g s u)
    (hv : v ∈ collectNonterminals (altsOf g u)) (hkv : isKey g v) :
    Reach g s v := by
  induction h with
  | refl w hw => exact Reach.step w v v hw hv (Reach.refl v hkv)
  | step a b c ha hb htail ih => exact Reach.step a b v ha hb (ih hv)

theorem projectN_keys_nodup (g : NormLang) (hnd : (g.map Prod.fst).Nodup)
    (s : String) : ((projectN g s).map Prod.fst).Nodup := by
  have hsub : List.Sublist ((projectN g s).map Prod.fst) (g.map Prod.fst) := by
    unfold projectN
    exact (List.filter_sublist g).map Prod.fst
  exact hnd.sublist hsub

theorem altsOf_projectN (g : NormLang) (hnd : (g.map Prod.fst).Nodup)
    (s u : String) (hu : Reach g s u) :
    altsOf (projectN g s) u = altsOf g u := by
  unfold altsOf
  rw [projectN_lookup g hnd s u, if_pos ((bfs_spec g s u).mpr hu)]

theorem reach_to_proj {g : NormLang} (hnd : (g.map Prod.fst).Nodup)
    {s u t : String} (h : Reach g u t) (hsu : Reach g s u) :
    Reach (projectN g s) u t := by
  induction h with
  | refl w hw => exact Reach.refl w ((projectN_isKey g hnd s w).mpr hsu)
  | step a v t2 ha hv htail ih =>
    have hsv : Reach g s v := hsu.snoc hv htail.src_isKey
    have halts := altsOf_projectN g hnd s a hsu
    exact Reach.step a v t2 ((projectN_isKey g hnd s a).mpr hsu)
      (halts ▸ hv) (ih hsv)

theorem reach_from_proj {g : NormLang} (hnd : (g.map Prod.fst).Nodup)
    {s u t : String} (h : Reach (projectN g s) u t) : Reach g u t := by
  induction h with
  | refl w hw =>
    exact Reach.refl w ((projectN_isKey g hnd s w).mp hw).tgt_isKey
  | step a v t2 ha hv htail ih =>
    have hsa : Reach g s a := (projectN_isKey g hnd s a).mp ha
    have halts := altsOf_projectN g hnd s a hsa
    exact Reach.step a v t2 hsa.tgt_isKey (halts ▸ hv) ih

/-- Projection is a fixed point: projecting the projection changes
nothing (the source of the § 8 property project(project(g,s),s) ==
project(g,s); here the canonical grammar-order embedding makes it a
literal equality, which implies the Python dict equality). -/
theorem projectN_idem (g : NormLang) (hnd : (g.map Prod.fst).Nodup)
    (s : String) : projectN (projectN g s) s = projectN g s := by
  have hnd2 := projectN_keys_nodup g hnd s
  have hall : ∀ p ∈ projectN g s, p.1 ∈ bfs (projectN g s) [s] [] := by
    intro p hp
    have hp2 : p.1 ∈ bfs g [s] [] := by
      unfold projectN at hp
      simpa using (List.mem_filter.mp hp).2
    have hr : Reach g s p.1 := (bfs_spec g s p.1).mp hp2
    have hss : Reach g s s := Reach.refl s hr.src_isKey
    exact (bfs_spec (projectN g s) s p.1).mpr (reach_to_proj hnd hr hss)
  show List.filter _ (projectN g s) = projectN g s
  exact List.filter_eq_self.mpr (fun p hp => by simpa using hall p hp)

/-! ## Generic helper lemmas -/

theorem eqMap_swap (a b : String) (x y : Alts) (h : ¬ a = b) :
    EqMap [(a, x), (b, y)] [(b, y), (a, x)] := by
  intro k
  by_cases ha : a = k
  · subst ha
    have hba : (b = a) = False := eq_false (fun hh => h hh.symm)
    simp [lookupN, hba]
  · by_cases hb : b = k <;> simp [lookupN, ha, hb]

/-! ## Claim C7: escape decoding -/

/-- Claim C7: in both literal and character-class parsing (the char
parser of flat/grammar/parsers.py and the one of flat/py/parser.py), the
escapes for xFF, uFFFF and U0010FFFF decode to the single characters with
code points 0xFF, 0xFFFF and 0x10FFFF; an escape with too few hex digits,
such as xF followed by the non-hex character z, fails to parse with a
failure message naming the expected digit count (2, 4 or 8 hex digits for
x, u, U), and that message differs from the generic invalid-escape
failure. -/
theorem c7_escape_decoding :
    (CharParse.charPy [] ("\\xFF".toList) 0 = .success 4 0xFF ∧
     CharParse.charPy [] ("\\uFFFF".toList) 0 = .success 6 0xFFFF ∧
     CharParse.charPy [] ("\\U0010FFFF".toList) 0 = .success 10 0x10FFFF ∧
     CharParse.charPy [] ("\\xFz".toList) 0 =
       .failure 2 "invalid Unicode escape sequence (expected 2 hex digits)" ∧
     CharParse.charPy [] ("\\uFFF".toList) 0 =
       .failure 2 "invalid Unicode escape sequence (expected 4 hex digits)" ∧
     CharParse.charPy [] ("\\U10FFFF".toList) 0 =
       .failure 2 "invalid Unicode escape sequence (expected 8 hex digits)" ∧
     CharParse.charPy [] ("\\z".toList) 0 = .failure 0 "invalid escape sequence" ∧
     "invalid Unicode escape sequence (expected 2 hex digits)" ≠
       "invalid escape sequence") ∧
    (CharParse.charG [] ("\\xFF".toList) 0 = .success 4 0xFF ∧
     CharParse.charG [] ("\\uFFFF".toList) 0 = .success 6 0xFFFF ∧
     CharParse.charG [] ("\\U0010FFFF".toList) 0 = .success 10 0x10FFFF ∧
     CharParse.charG [] ("\\xFz".toList) 0 =
       .failure 2 "2 hex digits (error: invalid Unicode escape sequence)" ∧
     CharParse.charG [] ("\\uFFF".toList) 0 =
       .failure 2 "4 hex digits (error: invalid Unicode escape sequence)" ∧
     CharParse.charG [] ("\\U10FFFF".toList) 0 =
       .failure 2 "8 hex digits (error: invalid Unicode escape sequence)" ∧
     CharParse.charG [] ("\\z".toList) 0 =
       .failure 0 "a valid escape character (error: invalid escape sequence)" ∧
     "2 hex digits (error: invalid Unicode escape sequence)" ≠
       "a valid escape character (error: invalid escape sequence)") := by
  exact ⟨⟨by decide, by decide, by decide, by decide, by decide, by decide,
          by decide, by decide⟩,
         ⟨by decide, by decide, by decide, by decide, by decide, by decide,
          by decide, by decide⟩⟩

/-! ## Claim C8: how the parse entry points signal failure -/

/-- Claim C8 counterexample: the EBNF entry point of
flat/grammar/parsers.py does not return a structured error value on parse
failure - it raises.  On the input ? (no rule can start there) parse_CFG
catches the parsy ParseError and raises SyntaxError; on the empty input
the handler itself crashes with IndexError, because
source.splitlines()[row] indexes an empty list. -/
theorem c8_parse_cfg_raises_counterexample :
    GramP.parseCFG 20 "?" =
      .error (.synError ["pattern <[A-Za-z0-9_-]+>", "pattern [A-Za-z0-9_-]+"]
        0 0 0 "?" "^") ∧
    GramP.parseCFG 20 "" = .error .indexError ∧
    GramP.didRaise (GramP.parseCFG 20 "?") = true :=
  ⟨rfl, rfl, rfl⟩

/-- Claim C8 amended: of the two parser families, only flat/py/parser.py
keeps the contract.  Its parse entry point returns the grammar on
success and an InvalidSyntax value carrying a message and a location on
parse failure, for both the ebnf and the regex formats (shown here on
concrete failing inputs, including the short-hex-escape one); the
flat/grammar/parsers.py entry point parse_CFG instead raises a
SyntaxError built from the ParseError (and raises IndexError from its own
handler on empty input). -/
theorem c8_parse_error_values :
    PyP.parsePy 20 .regex "|" =
      .ok (Sum.inr ⟨"Invalid syntax: invalid character", 0, 0⟩) ∧
    PyP.parsePy 20 .ebnf "?" =
      .ok (Sum.inr ⟨"Invalid syntax: expected identifier", 0, 0⟩) ∧
    PyP.parsePy 20 .regex "\\xF" =
      .ok (Sum.inr
        ⟨"Invalid syntax: invalid Unicode escape sequence (expected 2 hex digits)",
         0, 2⟩) ∧
    PyP.parsePy 20 .ebnf "S: \x27a\x27 A;" =
      .ok (Sum.inl [⟨.ref "S", .concat [.lit "a", .ref "A"]⟩]) ∧
    GramP.parseCFG 20 "S: \x27a\x27 A;" =
      .ok [⟨.symbol "S", .concat [.lit "a", .symbol "A"]⟩] ∧
    GramP.didRaise (GramP.parseCFG 20 "?") = true ∧
    GramP.didRaise (GramP.parseCFG 20 "") = true :=
  ⟨rfl, rfl, rfl, rfl, rfl, rfl, rfl⟩

/-! ## Claim C1: reduction of references -/

theorem validateCC_no_noStart (items : List CCItem) :
    ∀ d ∈ validateCC items, isNoStart d = false := by
  induction items with
  | nil => simp [validateCC]
  | cons it rest ih =>
    have hcons : validateCC (it :: rest) =
        (match it with
         | CCItem.ch _ => []
         | CCItem.range l u =>
           if u.toNat < l.toNat then [Diag.emptyRange (toString l) (toString u)]
           else []) ++ validateCC rest := rfl
    intro d hd
    rw [hcons] at hd
    rcases List.mem_append.mp hd with hd | hd
    · cases it with
      | ch c => simp at hd
      | range l u =>
        by_cases hlu : u.toNat < l.toNat <;> simp [hlu] at hd
        subst hd
        rfl
    · exact ih d hd

theorem validateName_no_noStart (ctx : Ctx) (id : String)
    (start : Option String) : ∀ d ∈ validateName ctx id start, isNoStart d = false := by
  intro d hd
  unfold validateName at hd
  rcases hl : ctx.lookup id with _ | (ntid | g) <;> rw [hl] at hd <;>
    rcases start with _ | s <;> simp at hd <;>
    first
      | (obtain rfl := hd; rfl)
      | (obtain ⟨-, rfl⟩ := hd; rfl)

theorem validate_no_noStart (ctx : Ctx) : ∀ (e : Expr),
    ∀ d ∈ validate ctx e, isNoStart d = false := by
  apply validate.induct ctx
    (fun e => ∀ d ∈ validate ctx e, isNoStart d = false)
    (fun es => ∀ d ∈ validateList ctx es, isNoStart d = false)
  · intro s d hd
    simp [validate] at hd
  · intro mode items d hd
    exact validateCC_no_noStart items d hd
  · intro id start d hd
    exact validateName_no_noStart ctx id start d hd
  · intro es ih d hd
    exact ih d hd
  · intro os ih d hd
    exact ih d hd
  · intro e ih d hd
    exact ih d hd
  · intro e ih d hd
    exact ih d hd
  · intro e ih d hd
    exact ih d hd
  · intro e n ih d hd
    exact ih d hd
  · intro e m u ih d hd
    rcases List.mem_append.mp hd with hd | hd
    · exact ih d hd
    · rcases u with _ | n
      · simp at hd
      · simp only at hd
        split at hd <;> simp at hd
        subst hd
        rfl
  · intro d hd
    simp [validateList] at hd
  · intro e es ih1 ih2 d hd
    rcases List.mem_append.mp hd with hd | hd
    · exact ih1 d hd
    · exact ih2 d hd

theorem collectRuleNames_no_noStart (ns seen : List String) :
    ∀ d ∈ (collectRuleNames ns seen).2, isNoStart d = false := by
  induction ns generalizing seen with
  | nil => simp [collectRuleNames]
  | cons n rest ih =>
    intro d hd
    by_cases hn : n ∈ seen
    · rcases hcr : collectRuleNames rest seen with ⟨nts, ds⟩
      simp only [collectRuleNames, if_pos hn, hcr] at hd
      rcases List.mem_cons.mp hd with hd | hd
      · subst hd
        rfl
      · exact ih seen d (by rw [hcr]; exact hd)
    · simp only [collectRuleNames, if_neg hn] at hd
      exact ih (seen ++ [n]) d hd

theorem normalizeL_no_noStart (lang : Lang) (finder : Finder) :
    ∀ d ∈ (normalizeL lang finder).diags, isNoStart d = false := by
  intro d hd
  rcases hcr : collectRuleNames ((rulesOf lang).map Prod.fst) [] with ⟨nts, rd⟩
  simp only [normalizeL, hcr] at hd
  rcases List.mem_append.mp hd with hd | hd
  · exact collectRuleNames_no_noStart _ [] d (by rw [hcr]; exact hd)
  · rcases List.mem_flatMap.mp hd with ⟨r, _, hdr⟩
    exact validate_no_noStart _ r.2 d hdr

/-- Claim C1 counterexample: an unresolved reference is not reduced to a
dangling NonTerminal.  Normalizing S: (a) A; with the default resolver
yields exactly one UndefinedRule diagnostic, but visit_Name returns the
empty symbol sequence for the unresolved A, so S maps to the single
alternative [a], not to [a, NonTerminal(A)] as the claim states. -/
theorem c1_ref_counterexample :
    (normalizeL langSA defaultFinder) =
      ⟨[.undefinedRule "A"], .ok [("S", [[.t "a"]])]⟩ ∧
    some ([[Sym.t "a"]] : Alts) ≠ some [[Sym.t "a", Sym.nt "A"]] :=
  ⟨rfl, by decide⟩

/-- Claim C1 amended: reduction of a reference Name(id).  (1) If id is a
locally defined rule the reduction is the single symbol NonTerminal(id).
(2) If id is not local and the resolver returns a normalized grammar, the
normalizer splices the projection of that grammar to its start rule into
the output under dotted keys and returns NonTerminal(id.start); no
NoStartRule diagnostic is ever issued by normalize (the Validator reports
UndefinedRule on an explicit start symbol only, and nothing when the
implicit start rule is missing - the projection is then empty and the
returned reference dangles silently).  (3) If the resolver returns
nothing, the Validator reports exactly one UndefinedRule for the
occurrence and the reduction is the empty symbol sequence, dropping the
reference; hence S: (a) A; yields one UndefinedRule and S maps to the
single alternative [a]. -/
theorem c1_ref_reduction_amended (ctx : Ctx) (id : String) (st : NSt) :
    (id ∈ ctx.nonterminals → visitE ctx (.name id none) st = .ok ([.nt id], st)) ∧
    (∀ g, id ∉ ctx.nonterminals → ctx.finder id = some g →
      visitE ctx (.name id none) st =
        .ok ([.nt (id ++ "." ++ "start")],
             ⟨splice st.rules id (projectN g "start"), st.fresh⟩)) ∧
    (id ∉ ctx.nonterminals → ctx.finder id = none →
      visitE ctx (.name id none) st = .ok ([], st) ∧
      validateName ctx id none = [.undefinedRule id]) ∧
    (∀ lang finder d, d ∈ (normalizeL lang finder).diags → isNoStart d = false) ∧
    normalizeL langSA defaultFinder =
      ⟨[.undefinedRule "A"], .ok [("S", [[.t "a"]])]⟩ := by
  refine ⟨?_, ?_, ?_, ?_, rfl⟩
  · intro hmem
    have hl : ctx.lookup id = some (Sum.inl id) := by
      simp [Ctx.lookup, hmem]
    simp [visitE, hl]
  · intro g hmem hf
    have hl : ctx.lookup id = some (Sum.inr g) := by
      simp [Ctx.lookup, hmem, hf]
    simp [visitE, hl]
  · intro hmem hf
    have hl : ctx.lookup id = none := by
      simp [Ctx.lookup, hmem, hf]
    exact ⟨by simp [visitE, hl], by simp [validateName, hl]⟩
  · intro lang finder d hd
    exact normalizeL_no_noStart lang finder d hd

/-- Claim C1, witness: the three cases at concrete inputs - the local
rule S, and the unresolved A, of the § 8 example grammar. -/
theorem c1_ref_reduction_witness :
    visitE ⟨["S"], defaultFinder⟩ (.name "S" none) ⟨[], 0⟩ =
      .ok ([.nt "S"], ⟨[], 0⟩) ∧
    visitE ⟨["S"], defaultFinder⟩ (.name "A" none) ⟨[], 0⟩ = .ok ([], ⟨[], 0⟩) ∧
    validateName ⟨["S"], defaultFinder⟩ "A" none = [.undefinedRule "A"] := by
  refine ⟨?_, ?_, ?_⟩
  · exact (c1_ref_reduction_amended ⟨["S"], defaultFinder⟩ "S" ⟨[], 0⟩).1
      (by decide)
  · exact ((c1_ref_reduction_amended ⟨["S"], defaultFinder⟩ "A" ⟨[], 0⟩).2.2.1
      (by decide) rfl).1
  · exact ((c1_ref_reduction_amended ⟨["S"], defaultFinder⟩ "A" ⟨[], 0⟩).2.2.1
      (by decide) rfl).2

/-! ## Claim C3: normal form of the bare regex a+ -/

/-- Claim C3 counterexample: a+ does not normalize to the claimed start
alternative.  The code returns start mapped to the single alternative
[NT(@1)] (visit_Plus returns only the fresh nonterminal), not to
[a, NT(@1)] as the claim states. -/
theorem c3_plus_start_counterexample :
    (normalizeL exprAplus defaultFinder).result = .ok normAplus ∧
    lookupN normAplus "start" = some [[.nt "@1"]] ∧
    some [[Sym.nt "@1"]] ≠ some [[Sym.t "a", Sym.nt "@1"]] :=
  ⟨rfl, rfl, by decide⟩

/-- Claim C3 amended: normalizing the bare regex a+ produces exactly the
mapping with start mapped to the single alternative [NT(@1)] and the fresh
rule @1 mapped to the two alternatives [a] and [a, NT(@1)], with no
diagnostics. -/
theorem c3_plus_normal_form :
    (normalizeL exprAplus defaultFinder).result = .ok normAplus ∧
    EqMap normAplus
      [("start", [[.nt "@1"]]), ("@1", [[.t "a"], [.t "a", .nt "@1"]])] ∧
    (normalizeL exprAplus defaultFinder).diags = [] :=
  ⟨rfl, fun k => (eqMap_swap "@1" "start" _ _ (by decide) k).symm ▸ rfl, rfl⟩

/-! ## Claim C2: projection computes reachability -/

/-- Claim C2: for every normal-form grammar (unique keys, as a Python dict
guarantees) and every start name, project returns exactly the rules whose
names are reachable from the start by following NonTerminal references
(the start itself included when it is a key), each with its unchanged
alternatives; when the start is not a key the result is empty; and
projection is a fixed point: project(project(g,s),s) == project(g,s). -/
theorem c2_project_reachable (g : NormLang) (s : String)
    (hnd : (g.map Prod.fst).Nodup) :
    (∀ t, isKey (projectN g s) t ↔ Reach g s t) ∧
    (∀ t, Reach g s t → lookupN (projectN g s) t = lookupN g t) ∧
    (isKey g s → Reach g s s) ∧
    (isKey g s = false → projectN g s = []) ∧
    projectN (projectN g s) s = projectN g s := by
  refine ⟨projectN_isKey g hnd s, ?_, fun h => Reach.refl s h, ?_,
    projectN_idem g hnd s⟩
  · intro t hr
    rw [projectN_lookup g hnd s t, if_pos ((bfs_spec g s t).mpr hr)]
  · intro hk
    have hb : bfs g [s] [] = [] := by
      rw [bfs, dif_neg (by simp [hk]), bfs]
    show List.filter _ g = []
    rw [hb]
    simp

/-- Claim C2, witness: the § 8 grammar.  Normalizing B: (b) C | D;
C: (c) | D; D: (d) | C; A: (a); gives gBCDA; projecting it to B keeps
exactly the rules B, C and D with unchanged alternatives, never A, and
projecting again is a fixed point (the last conjunct instantiates the main
theorem, whose key-uniqueness hypothesis holds by computation). -/
theorem c2_project_reachable_witness :
    (normalizeL langBCDA defaultFinder).result = .ok gBCDA ∧
    (gBCDA.map Prod.fst).Nodup ∧
    projectN gBCDA "B" =
      [("B", [[.t "b", .nt "C"], [.nt "D"]]),
       ("C", [[.t "c"], [.nt "D"]]),
       ("D", [[.t "d"], [.nt "C"]])] ∧
    lookupN (projectN gBCDA "B") "A" = none ∧
    projectN (projectN gBCDA "B") "B" = projectN gBCDA "B" := by
  have hB : projectN gBCDA "B" =
      [("B", [[.t "b", .nt "C"], [.nt "D"]]),
       ("C", [[.t "c"], [.nt "D"]]),
       ("D", [[.t "d"], [.nt "C"]])] := by
    simp [projectN, bfs, gBCDA, isKey, lookupN, altsOf, collectNonterminals,
      List.dedup]
  refine ⟨rfl, by decide, hB, ?_,
    (c2_project_reachable gBCDA "B" (by decide)).2.2.2.2⟩
  rw [hB]
  rfl

/-! ## Claim C4: bounded loops -/

/-- Claim C4, evaluation at the failing input: the bounded loop a{0,0}
(NatRange lower 0, upper 0, so m ≤ n and n is not unbounded) is normalized
through the unbounded star branch, because the source guards the bounded
branch with the truthiness test if times.upper, which is false for the
int 0 just as for None.  The claim (and the NatRange contract that only
upper = None means unbounded) requires the fresh rule to hold exactly the
alternatives seq×k for k in 0..=0, that is [[]]; the code instead emits
the a* expansion.  The second conjunct shows a{2,4}, where upper is
truthy, matching the claim. -/
theorem c4_loop_zero_upper_bug :
    ((normalizeL (.expr (.loop (.lit "a") 0 (some 0))) defaultFinder).result =
      .ok [("@1", [[], [.t "a", .nt "@1"]]), ("start", [[.nt "@1"]])] ∧
     ([[], [Sym.t "a", Sym.nt "@1"]] : Alts) ≠ [[]]) ∧
    (normalizeL (.expr (.loop (.lit "a") 2 (some 4))) defaultFinder).result =
      .ok [("@1", [[], [.t "a"], [.t "a", .t "a"]]),
           ("start", [[.t "a", .t "a", .nt "@1"]])] :=
  ⟨⟨rfl, by decide⟩, rfl⟩

/-! ## Claim C5: empty loop ranges -/

/-- Claim C5 counterexample: for a{5,3} the loop does not reduce to the
empty symbol sequence.  The code reduces it to reduce(e)×m followed by
the fresh nonterminal (here five a terminals and NT(@1), with @1 given an
empty alternative list), so the start rule has a six-symbol alternative,
not an empty one as the claim states. -/
theorem c5_loop_empty_range_counterexample :
    (normalizeL (.expr (.loop (.lit "a") 5 (some 3))) defaultFinder) =
      ⟨[.emptyRange "5" "3"],
       .ok [("@1", []),
            ("start", [[.t "a", .t "a", .t "a", .t "a", .t "a", .nt "@1"]])]⟩ ∧
    ([[Sym.t "a", Sym.t "a", Sym.t "a", Sym.t "a", Sym.t "a", Sym.nt "@1"]] : Alts)
      ≠ [[]] :=
  ⟨rfl, by decide⟩

/-- Claim C5 amended: for every Loop(e, NatRange(m, n)) with 1 ≤ n < m,
validation reports exactly one EmptyRange diagnostic for the loop (after
the diagnostics of the element) and normalization does not crash: the loop
reduces to reduce(e) repeated m times followed by NonTerminal(fresh),
where the fresh rule receives an empty alternative list (a rule generating
nothing), not to an empty symbol sequence.  For a{5,3} this gives exactly
one EmptyRange diagnostic and start mapped to the single alternative of
five a terminals and NT(@1), with @1 mapped to no alternatives.  (For
n = 0 the truthiness bug recorded at claim C4 applies instead: a{m,0}
is treated as unbounded and no EmptyRange is reported.) -/
theorem c5_loop_empty_range_amended (ctx : Ctx) (e : Expr) (m n : Nat)
    (h1 : 1 ≤ n) (h2 : n < m) (st : NSt) :
    validate ctx (.loop e m (some n)) =
      validate ctx e ++ [.emptyRange (toString m) (toString n)] ∧
    (∀ seq st2, visitE ctx e st = .ok (seq, st2) →
      visitE ctx (.loop e m (some n)) st =
        .ok (repSeq seq m ++ [.nt (freshName (st2.fresh + 1))],
          ⟨dictSet st2.rules (freshName (st2.fresh + 1)) [], st2.fresh + 1⟩)) ∧
    (normalizeL (.expr (.loop (.lit "a") 5 (some 3))) defaultFinder).diags =
      [.emptyRange "5" "3"] := by
  refine ⟨?_, ?_, rfl⟩
  · have hn : n ≠ 0 := by omega
    simp [validate, hn, h2]
  · intro seq st2 hv
    obtain ⟨n0, rfl⟩ : ∃ n0, n = n0 + 1 := ⟨n - 1, by omega⟩
    have hr : n0 + 1 + 1 - m = 0 := by omega
    simp [visitE, hv, hr, repSeq]

/-! ## Claim C6: inclusive character classes -/

/-- Claim C6 counterexample: overlapping items do produce duplicate
alternatives.  For the class holding the item a twice, the code collects
both occurrences, so the length-one test fails and the fresh rule receives
the alternative [a] twice - the claim says one alternative per distinct
character with no duplicates (under which this class would reduce to a
single character). -/
theorem c6_char_class_duplicates_counterexample :
    (normalizeL (.expr (.charClass .inclusive [.ch 'a', .ch 'a']))
        defaultFinder).result =
      .ok [("@1", [[.t "a"], [.t "a"]]), ("start", [[.nt "@1"]])] ∧
    ¬ ([[Sym.t "a"], [Sym.t "a"]] : Alts).Nodup :=
  ⟨rfl, by decide⟩

/-- Claim C6 amended: the normalizer expands every inclusive class to the
list of its character occurrences in item order, skipping each range with
lower greater than upper (the validator reports exactly one EmptyRange per
such range, in item order); when exactly one occurrence results the
reduction is that character as a Terminal, otherwise it is
NonTerminal(fresh) with one single-character alternative per occurrence,
duplicates retained when items overlap.  [abc] gives the fresh rule the
three alternatives [a], [b], [c]; [z-a] gives exactly one EmptyRange and
an alternative-free fresh rule. -/
theorem c6_char_class_amended (ctx : Ctx) (items : List CCItem) (st : NSt) :
    validateCC items = items.filterMap (fun it =>
      match it with
      | .range l u =>
        if u.toNat < l.toNat then some (.emptyRange (toString l) (toString u))
        else none
      | .ch _ => none) ∧
    (∀ l u rest, u.toNat < l.toNat → ccChars (.range l u :: rest) = ccChars rest) ∧
    (∀ c, ccChars items = [c] →
      visitE ctx (.charClass .inclusive items) st = .ok ([.t (toString c)], st)) ∧
    ((ccChars items).length ≠ 1 →
      visitE ctx (.charClass .inclusive items) st =
        .ok ([.nt (freshName (st.fresh + 1))],
          ⟨dictSet st.rules (freshName (st.fresh + 1))
            ((ccChars items).map (fun c => [.t (toString c)])), st.fresh + 1⟩)) ∧
    (normalizeL (.expr (.charClass .inclusive [.ch 'a', .ch 'b', .ch 'c']))
        defaultFinder).result =
      .ok [("@1", [[.t "a"], [.t "b"], [.t "c"]]), ("start", [[.nt "@1"]])] ∧
    (normalizeL (.expr (.charClass .inclusive [.range 'z' 'a'])) defaultFinder) =
      ⟨[.emptyRange "z" "a"], .ok [("@1", []), ("start", [[.nt "@1"]])]⟩ := by
  refine ⟨?_, ?_, ?_, ?_, rfl, rfl⟩
  · induction items with
    | nil => rfl
    | cons it rest ih =>
      have hcons : validateCC (it :: rest) =
          (match it with
           | CCItem.ch _ => []
           | CCItem.range l u =>
             if u.toNat < l.toNat then [Diag.emptyRange (toString l) (toString u)]
             else []) ++ validateCC rest := rfl
      rw [hcons, ih, List.filterMap_cons]
      cases it with
      | ch c => simp
      | range l u => by_cases hlu : u.toNat < l.toNat <;> simp [hlu]
  · intro l u rest hlu
    have : u.toNat + 1 - l.toNat = 0 := by omega
    simp [ccChars, this]
  · intro c hc
    simp [visitE, hc]
  · intro hlen
    rcases hcc : ccChars items with _ | ⟨c, _ | ⟨c2, rest2⟩⟩
    · simp [visitE, hcc]
    · rw [hcc] at hlen
      simp at hlen
    · simp [visitE, hcc]

/-! ## Claim C9: totality of normalize -/

theorem exists_ok_of_exOk {α : Type} {x : Except Unit α} (h : exOk x = true) :
    ∃ r, x = .ok r := by
  cases x with
  | error e => simp [exOk] at h
  | ok v => exact ⟨v, rfl⟩

theorem visitE_total (ctx : Ctx) : ∀ (e : Expr) (st : NSt),
    noExcl e = true → ∃ r, visitE ctx e st = .ok r := by
  apply visitE.induct ctx
    (fun e st => noExcl e = true → ∃ r, visitE ctx e st = .ok r)
    (fun es st => noExclList es = true → ∃ r, visitList ctx es st = .ok r)
  · intro s st _
    exact ⟨_, rfl⟩
  · intro items st hx
    simp [noExcl] at hx
  · intro items st c hc _
    exact exists_ok_of_exOk (by simp [visitE, hc, exOk])
  · intro items st hns _
    rcases hcc : ccChars items with _ | ⟨c, _ | ⟨c2, rest2⟩⟩
    · exact exists_ok_of_exOk (by simp [visitE, hcc, exOk])
    · exact absurd hcc (hns c)
    · exact exists_ok_of_exOk (by simp [visitE, hcc, exOk])
  · intro id start st ntid hl _
    exact exists_ok_of_exOk (by simp [visitE, hl, exOk])
  · intro id start st g hl _
    exact exists_ok_of_exOk (by simp [visitE, hl, exOk])
  · intro id start st hl _
    exact exists_ok_of_exOk (by simp [visitE, hl, exOk])
  · intro es st err herr ih hx
    obtain ⟨r, hok⟩ := ih (by simpa [noExcl] using hx)
    rw [herr] at hok
    exact absurd hok (by simp)
  · intro es st symss st2 hok ih _
    exact exists_ok_of_exOk (by simp [visitE, hok, exOk])
  · intro os st err herr ih hx
    obtain ⟨r, hok⟩ := ih (by simpa [noExcl] using hx)
    rw [herr] at hok
    exact absurd hok (by simp)
  · intro os st symss st2 hok ih _
    exact exists_ok_of_exOk (by simp [visitE, hok, exOk])
  · intro e st err herr ih hx
    obtain ⟨r, hok⟩ := ih (by simpa [noExcl] using hx)
    rw [herr] at hok
    exact absurd hok (by simp)
  · intro e st seq st2 hok ih _
    exact exists_ok_of_exOk (by simp [visitE, hok, exOk])
  · intro e st err herr ih hx
    obtain ⟨r, hok⟩ := ih (by simpa [noExcl] using hx)
    rw [herr] at hok
    exact absurd hok (by simp)
  · intro e st seq st2 hok ih _
    exact exists_ok_of_exOk (by simp [visitE, hok, exOk])
  · intro e st err herr ih hx
    obtain ⟨r, hok⟩ := ih (by simpa [noExcl] using hx)
    rw [herr] at hok
    exact absurd hok (by simp)
  · intro e st seq st2 hok ih _
    exact exists_ok_of_exOk (by simp [visitE, hok, exOk])
  · intro e n st err herr ih hx
    obtain ⟨r, hok⟩ := ih (by simpa [noExcl] using hx)
    rw [herr] at hok
    exact absurd hok (by simp)
  · intro e n st seq st2 hok ih _
    exact exists_ok_of_exOk (by simp [visitE, hok, exOk])
  · intro e m u st err herr ih hx
    obtain ⟨r, hok⟩ := ih (by simpa [noExcl] using hx)
    rw [herr] at hok
    exact absurd hok (by simp)
  · intro e m st seq st2 hok n0 ih _
    exact exists_ok_of_exOk (by simp [visitE, hok, exOk])
  · intro e m u st seq st2 hok hne ih _
    match u with
    | none => exact exists_ok_of_exOk (by simp [visitE, hok, exOk])
    | some 0 => exact exists_ok_of_exOk (by simp [visitE, hok, exOk])
    | some (Nat.succ n0) => exact absurd rfl (hne n0)
  · intro st _
    exact ⟨_, rfl⟩
  · intro e es st err herr ih hx
    simp only [noExclList, Bool.and_eq_true] at hx
    obtain ⟨r, hok⟩ := ih hx.1
    rw [herr] at hok
    exact absurd hok (by simp)
  · intro e es st seq st2 hok e1 herr ih1 ih2 hx
    simp only [noExclList, Bool.and_eq_true] at hx
    obtain ⟨r, hok2⟩ := ih2 hx.2
    rw [herr] at hok2
    exact absurd hok2 (by simp)
  · intro e es st seq st2 hok symss st2b hok2 ih1 ih2 _
    exact exists_ok_of_exOk (by simp [visitList, hok, hok2, exOk])

theorem visitList_total (ctx : Ctx) (es : List Expr) (st : NSt) :
    noExclList es = true → ∃ r, visitList ctx es st = .ok r := by
  induction es generalizing st with
  | nil => exact fun _ => ⟨_, rfl⟩
  | cons e es ih =>
    intro hx
    simp only [noExclList, Bool.and_eq_true] at hx
    obtain ⟨⟨s1, st1⟩, h1⟩ := visitE_total ctx e st hx.1
    obtain ⟨⟨ss, st2⟩, h2⟩ := ih st1 hx.2
    exact exists_ok_of_exOk (by simp [visitList, h1, h2, exOk])

theorem ruleN_total (ctx : Ctx) (id : String) (body : Expr) (st : NSt) :
    noExcl body = true → ∃ st2, ruleN ctx id body st = .ok st2 := by
  intro hx
  cases body with
  | union os =>
    obtain ⟨⟨alts, st2⟩, h⟩ := visitList_total ctx os st (by simpa [noExcl] using hx)
    exact exists_ok_of_exOk (by simp [ruleN, h, exOk])
  | lit s =>
    obtain ⟨⟨syms, st2⟩, h⟩ := visitE_total ctx _ st hx
    exact exists_ok_of_exOk (by simp [ruleN, h, exOk])
  | charClass mode items =>
    obtain ⟨⟨syms, st2⟩, h⟩ := visitE_total ctx _ st hx
    exact exists_ok_of_exOk (by simp [ruleN, h, exOk])
  | name nid nstart =>
    obtain ⟨⟨syms, st2⟩, h⟩ := visitE_total ctx _ st hx
    exact exists_ok_of_exOk (by simp [ruleN, h, exOk])
  | concat es =>
    obtain ⟨⟨syms, st2⟩, h⟩ := visitE_total ctx _ st hx
    exact exists_ok_of_exOk (by simp [ruleN, h, exOk])
  | star e =>
    obtain ⟨⟨syms, st2⟩, h⟩ := visitE_total ctx _ st hx
    exact exists_ok_of_exOk (by simp [ruleN, h, exOk])
  | plus e =>
    obtain ⟨⟨syms, st2⟩, h⟩ := visitE_total ctx _ st hx
    exact exists_ok_of_exOk (by simp [ruleN, h, exOk])
  | opt e =>
    obtain ⟨⟨syms, st2⟩, h⟩ := visitE_total ctx _ st hx
    exact exists_ok_of_exOk (by simp [ruleN, h, exOk])
  | power e n =>
    obtain ⟨⟨syms, st2⟩, h⟩ := visitE_total ctx _ st hx
    exact exists_ok_of_exOk (by simp [ruleN, h, exOk])
  | loop e m u =>
    obtain ⟨⟨syms, st2⟩, h⟩ := visitE_total ctx _ st hx
    exact exists_ok_of_exOk (by simp [ruleN, h, exOk])

theorem runRules_total (ctx : Ctx) (rs : List (String × Expr)) (st : NSt) :
    noExclList (rs.map Prod.snd) = true → ∃ st2, runRules ctx rs st = .ok st2 := by
  induction rs generalizing st with
  | nil => exact fun _ => ⟨_, rfl⟩
  | cons r rest ih =>
    intro hx
    simp only [List.map_cons, noExclList, Bool.and_eq_true] at hx
    obtain ⟨st2, h2⟩ := ruleN_total ctx r.1 r.2 st hx.1
    obtain ⟨st3, h3⟩ := ih st2 hx.2
    exact ⟨st3, by
      obtain ⟨rid, rbody⟩ := r
      simp only [runRules, h2, h3]⟩

/-- Claim C9 counterexample: normalize does not run to completion on every
parser-producible AST.  On an exclusive character class (which the parser
accepts) Normalizer.visit_CharClass fails its assert node.mode ==
inclusive, so normalize aborts with an AssertionError instead of
returning a normal form; the diagnostics collected before the Normalizer
pass (here none) are all the caller gets. -/
theorem c9_exclusive_class_counterexample :
    (normalizeL (.expr (.charClass .exclusive [.ch 'a'])) defaultFinder).result =
      .error () ∧
    (normalizeL (.expr (.charClass .exclusive [.ch 'a'])) defaultFinder).diags =
      [] ∧
    PyP.parsePy 20 .regex "[^a]" =
      .ok (Sum.inl [⟨.ref "start", .charClass "exclusive" [.ch 'a']⟩]) :=
  ⟨rfl, rfl, rfl⟩

theorem noExclL_rules {lang : Lang} (h : noExclL lang = true) :
    noExclList ((rulesOf lang).map Prod.snd) = true := by
  cases lang with
  | expr e => simpa [rulesOf, noExclList, noExclL] using h
  | rules rs => simpa [rulesOf, noExclL] using h

/-- Claim C9 amended: for every language whose expressions contain no
exclusive character class, normalize runs to completion and returns a
normal form, problems being only appended to the diagnostics sink; an
exclusive class (which the parser accepts) instead aborts the Normalizer
with an AssertionError, as the § 9 note in the spec records. -/
theorem c9_normalize_total_amended (lang : Lang) (finder : Finder)
    (h : noExclL lang = true) :
    ∃ nl, (normalizeL lang finder).result = .ok nl := by
  rcases hcr : collectRuleNames ((rulesOf lang).map Prod.fst) [] with ⟨nts, rd⟩
  obtain ⟨st2, h2⟩ :=
    runRules_total ⟨nts, finder⟩ (rulesOf lang) ⟨[], 0⟩ (noExclL_rules h)
  exact ⟨st2.rules, by simp [normalizeL, hcr, h2, Except.map]⟩

/-- Claim C9, witness: the a+ language is exclusive-free and normalizes
to a normal form. -/
theorem c9_normalize_total_witness :
    noExclL exprAplus = true ∧
    ∃ nl, (normalizeL exprAplus defaultFinder).result = .ok nl :=
  ⟨rfl, c9_normalize_total_amended exprAplus defaultFinder rfl⟩

/-- Claim C5, witness: the amended statement applied to the loop a{5,3}
over the literal a from the initial normalizer state. -/
theorem c5_loop_empty_range_witness :
    validate ⟨[], defaultFinder⟩ (.loop (.lit "a") 5 (some 3)) =
      validate ⟨[], defaultFinder⟩ (.lit "a") ++
        [.emptyRange (toString 5) (toString 3)] ∧
    (∀ seq st2, visitE ⟨[], defaultFinder⟩ (.lit "a") ⟨[], 0⟩ = .ok (seq, st2) →
      visitE ⟨[], defaultFinder⟩ (.loop (.lit "a") 5 (some 3)) ⟨[], 0⟩ =
        .ok (repSeq seq 5 ++ [.nt (freshName (st2.fresh + 1))],
          ⟨dictSet st2.rules (freshName (st2.fresh + 1)) [], st2.fresh + 1⟩)) ∧
    (normalizeL (.expr (.loop (.lit "a") 5 (some 3))) defaultFinder).diags =
      [.emptyRange "5" "3"] :=
  c5_loop_empty_range_amended ⟨[], defaultFinder⟩ (.lit "a") 5 3
    (by decide) (by decide) ⟨[], 0⟩

/-- Claim C6, witness: the amended statement applied to the class [abc]
from the initial normalizer state gives the fresh rule with exactly the
three single-character alternatives. -/
theorem c6_char_class_witness :
    visitE ⟨[], defaultFinder⟩
        (.charClass .inclusive [.ch 'a', .ch 'b', .ch 'c']) ⟨[], 0⟩ =
      .ok ([.nt "@1"], ⟨[("@1", [[.t "a"], [.t "b"], [.t "c"]])], 1⟩) := by
  have h := (c6_char_class_amended ⟨[], defaultFinder⟩
    [.ch 'a', .ch 'b', .ch 'c'] ⟨[], 0⟩).2.2.2.1 (by decide)
  simpa using h

/-! ## Claim C10: determinism of normalize -/

/-- Claim C10: normalize is deterministic.  The Normalizer state (rules
dict and fresh counter, started at 0) and the diagnostics are created per
invocation, so two invocations on the same language and resolver produce
equal normal forms and append the same diagnostics in the same order to
their issuers, whatever each issuer already contained; the concrete fresh
names of the § 8 examples are reproducible, as the a+ run shows. -/
theorem c10_normalize_deterministic (lang : Lang) (finder : Finder)
    (d0 d1 : List Diag) :
    (normalizeWithIssuer lang finder d0).2 = (normalizeWithIssuer lang finder d1).2 ∧
    (normalizeWithIssuer lang finder d0).1.drop d0.length =
      (normalizeWithIssuer lang finder d1).1.drop d1.length ∧
    normalizeWithIssuer exprAplus defaultFinder [] = ([], .ok normAplus) := by
  refine ⟨rfl, ?_, rfl⟩
  simp [normalizeWithIssuer]

end FlatSpec
